import Mathlib

/-!
Shallow embedding of `pyls` (src/pyls.py), a directory-listing utility, together
with models of the pieces of the Python standard library it calls
(`stat.filemode`, `textwrap.fill`, `str` methods, `pathlib.Path.name`).
Filesystem access (`Path.lstat`, `Path.iterdir`, `Path.resolve`), the identity
databases (`pwd`, `grp`) and local-time conversion (`datetime`) are external
inputs; they are modelled as explicit environment records (`FS`, `Clock`)
passed to every function that the Python code would have perform such a call.
Machine behaviour that raises a Python exception is modelled with `Except` /
an error component: an uncaught exception aborts the run with a traceback and
a nonzero exit status.
-/

deriving instance DecidableEq for Except

namespace Pyls

/-- Python exception kinds that the modelled code can raise. -/
inductive PyError where
  | fileNotFound (path : String)
  | notADirectory (path : String)
  | typeError
  | valueError
  | keyError
  | attributeError
  deriving DecidableEq, Repr

/-! ## Python string primitives -/

/-- Models Python `str.rjust(w)` (pad with spaces on the left; no-op when the
string is already at least `w` wide). -/
def pyRjust (s : String) (w : Nat) : String :=
  if w ≤ s.length then s else String.mk (List.replicate (w - s.length) ' ') ++ s

/-- Models Python `str.ljust(w)`. -/
def pyLjust (s : String) (w : Nat) : String :=
  if w ≤ s.length then s else s ++ String.mk (List.replicate (w - s.length) ' ')

/-- ASCII lowercase of one character, as `str.lower()` does on the ASCII
range (Python additionally lowercases non-ASCII letters, which this
development does not need). -/
def pyLowerChar (c : Char) : Char :=
  if 'A' ≤ c ∧ c ≤ 'Z' then Char.ofNat (c.toNat + 32) else c

/-- Models Python `str.lower()` on the ASCII range. -/
def pyLower (s : String) : String := String.mk (s.data.map pyLowerChar)

/-- Models Python `str.strip('.')`: removes `'.'` characters from BOTH ends of
the string (leading and trailing). -/
def pyStripDots (s : String) : String :=
  String.mk (((s.data.dropWhile (· == '.')).reverse.dropWhile (· == '.')).reverse)

/-- Models Python `max(strings, key=len)`: `ValueError` on an empty list,
otherwise the first element of maximal length. -/
def pyMaxByLen : List String → Except PyError String
  | [] => .error .valueError
  | s :: rest => .ok (rest.foldl (fun acc t => if acc.length < t.length then t else acc) s)

/-- Models `str(x)` for an optional integer field of `FileInfo`:
`str(None) = "None"`. -/
def pyStrOptNat : Option Nat → String
  | none => "None"
  | some n => toString n

/-- Models Python `sep.join(strings)`. -/
def pyJoin (sep : String) : List String → String
  | [] => ""
  | [s] => s
  | s :: rest => s ++ sep ++ pyJoin sep rest

/-- Split a character list on `'/'` (like `str.split('/')`, keeping empty
segments). -/
def splitSlash : List Char → List (List Char)
  | [] => [[]]
  | c :: cs =>
      if c = '/' then [] :: splitSlash cs
      else
        match splitSlash cs with
        | [] => [[c]]
        | seg :: rest => (c :: seg) :: rest

/-- Models `pathlib.PurePosixPath(p).name`: the last path component after the
parser drops empty and `"."` segments (so `Path("d/x").name = "x"`,
`Path(".").name = ""`). -/
def pathName (p : String) : String :=
  match ((splitSlash p.data).filter (fun s => !(s.isEmpty) && !(s == ['.']))).getLast? with
  | some seg => String.mk seg
  | none => ""

/-- Models `name.startswith('.')` (the hidden-file test of `get_children`). -/
def startsWithDot (s : String) : Bool :=
  match s.data with
  | c :: _ => c == '.'
  | [] => false

/-! ## The `stat` module -/

/-- `stat.S_IFMT(mode)`. -/
def S_IFMT (mode : Nat) : Nat := mode &&& 0o170000

def S_ISDIR (mode : Nat) : Bool := S_IFMT mode == 0o040000
def S_ISREG (mode : Nat) : Bool := S_IFMT mode == 0o100000
def S_ISLNK (mode : Nat) : Bool := S_IFMT mode == 0o120000
def S_ISSOCK (mode : Nat) : Bool := S_IFMT mode == 0o140000
def S_ISFIFO (mode : Nat) : Bool := S_IFMT mode == 0o010000
def S_ISBLK (mode : Nat) : Bool := S_IFMT mode == 0o060000
def S_ISCHR (mode : Nat) : Bool := S_IFMT mode == 0o020000

/-- One row of `stat._filemode_table`: the first `(bit, char)` pair with
`mode & bit == bit` wins, otherwise `'-'`. -/
def filemodeRow (mode : Nat) : List (Nat × Char) → Char
  | [] => '-'
  | (bit, ch) :: rest => if mode &&& bit == bit then ch else filemodeRow mode rest

/-- Models `stat.filemode(mode)`: the 10-character `-rwxrwxrwx`-style string,
including the setuid/setgid/sticky special characters. -/
def filemode (mode : Nat) : String :=
  String.mk
    [ filemodeRow mode [(0o120000, 'l'), (0o140000, 's'), (0o100000, '-'),
        (0o060000, 'b'), (0o040000, 'd'), (0o020000, 'c'), (0o010000, 'p')],
      filemodeRow mode [(0o400, 'r')],
      filemodeRow mode [(0o200, 'w')],
      filemodeRow mode [(0o4100, 's'), (0o4000, 'S'), (0o100, 'x')],
      filemodeRow mode [(0o040, 'r')],
      filemodeRow mode [(0o020, 'w')],
      filemodeRow mode [(0o2010, 's'), (0o2000, 'S'), (0o010, 'x')],
      filemodeRow mode [(0o004, 'r')],
      filemodeRow mode [(0o002, 'w')],
      filemodeRow mode [(0o1001, 't'), (0o1000, 'T'), (0o001, 'x')] ]

/-! ## External environment: filesystem, identity databases, local time -/

/-- The fields of an `os.stat_result` that `pyls` reads. -/
structure LStat where
  st_mode : Nat
  st_nlink : Nat
  st_size : Nat
  st_mtime : Int
  st_uid : Nat
  st_gid : Nat
  deriving DecidableEq, Repr

/-- The filesystem and identity-database environment.
`lstatOf` models `Path.lstat()` (`none` = `FileNotFoundError`); `statOf`
models `Path.stat()`, the link-following variant, which is available in the
environment but never consulted by `pyls`'s long format; `childrenOf` models
`Path.iterdir()` (`none` = `NotADirectoryError`), returning child paths in
filesystem order; `resolveOf` models `Path.resolve()` (absolute path with
symlinks resolved); `pwdb`/`grdb` model `pwd.getpwuid`/`grp.getgrgid`
(`none` = `KeyError`). -/
structure FS where
  lstatOf : String → Option LStat
  statOf : String → Option LStat
  childrenOf : String → Option (List String)
  resolveOf : String → String
  pwdb : Nat → Option String
  grdb : Nat → Option String

/-- A broken-down local time, as produced by `datetime.fromtimestamp`. -/
structure BrokenTime where
  year : Int
  month : Nat
  day : Nat
  hour : Nat
  minute : Nat
  deriving DecidableEq, Repr

/-- Local-time conversion and the current date: `localtime` models
`datetime.datetime.fromtimestamp` (and `datetime.date.fromtimestamp`, which
yields the same calendar year); `todayYear` models
`datetime.date.today().year`. -/
structure Clock where
  localtime : Int → BrokenTime
  todayYear : Int

/-! ## `Color` and `FileType` -/

/-- The escape sequences of the `Color` enum that `get_long_str` uses. -/
def Color_BOLD : String := "\x1b[1m"

def Color_BLUE : String := "\x1b[94m"

def Color_END : String := "\x1b[0m"

/-- The `FileType` enum. -/
inductive FileType where
  | DIR
  | REG
  | LNK
  | SOCK
  | FIFO
  | BLK
  | CHR
  | UNKNOWN
  deriving DecidableEq, Repr

/-- Models `FileType.get_file_type`, which probes `stat.S_IS<NAME>` for each
member in declaration order.  For the final member `UNKNOWN` the probe
`getattr(stat, 'S_ISUNKNOWN')` raises `AttributeError` (the `stat` module has
no such predicate), so a mode matching none of the seven real types aborts
instead of returning `UNKNOWN`. -/
def FileType.get_file_type (mode : Nat) : Except PyError FileType :=
  if S_ISDIR mode then .ok .DIR
  else if S_ISREG mode then .ok .REG
  else if S_ISLNK mode then .ok .LNK
  else if S_ISSOCK mode then .ok .SOCK
  else if S_ISFIFO mode then .ok .FIFO
  else if S_ISBLK mode then .ok .BLK
  else if S_ISCHR mode then .ok .CHR
  else .error .attributeError

/-! ## `FileInfo` -/

/-- The `FileInfo` value object.  The eight metadata fields are `None` after
`__init__` and are populated by `get_long_info`. -/
structure FileInfo where
  path : String
  name : String
  file_type : FileType
  filemode_str : Option String := none
  num_links : Option Nat := none
  size : Option Nat := none
  mtime : Option Int := none
  uid : Option Nat := none
  gid : Option Nat := none
  owner : Option String := none
  group : Option String := none
  deriving DecidableEq, Repr

/-- Models `FileInfo.__init__(path)`: `self.path = Path(path)`,
`self.name = self.path.name`, `self.file_type = FileType.get_file_type(path)`
(which calls `path.lstat()` and so raises `FileNotFoundError` for a missing
path); all metadata fields start as `None`. -/
def FileInfo.init (fs : FS) (path : String) : Except PyError FileInfo := do
  match fs.lstatOf path with
  | none => .error (.fileNotFound path)
  | some st => do
      let ft ← FileType.get_file_type st.st_mode
      .ok { path := path, name := pathName path, file_type := ft }

/-- Models `FileInfo.get_long_info`: re-stats the path with `lstat` (never
`stat`, so a symlink's own metadata is used), then resolves the owner and
group names from the uid and gid. -/
def FileInfo.get_long_info (fs : FS) (f : FileInfo) : Except PyError FileInfo := do
  match fs.lstatOf f.path with
  | none => .error (.fileNotFound f.path)
  | some st =>
      match fs.pwdb st.st_uid, fs.grdb st.st_gid with
      | some ow, some gr =>
          .ok { f with
                filemode_str := some (filemode st.st_mode),
                num_links := some st.st_nlink,
                size := some st.st_size,
                mtime := some st.st_mtime,
                uid := some st.st_uid,
                gid := some st.st_gid,
                owner := some ow,
                group := some gr }
      | _, _ => .error .keyError

/-- Month abbreviations used by `strftime("%b")` in the C locale. -/
def monthAbbrev : Nat → String
  | 1 => "Jan" | 2 => "Feb" | 3 => "Mar" | 4 => "Apr" | 5 => "May" | 6 => "Jun"
  | 7 => "Jul" | 8 => "Aug" | 9 => "Sep" | 10 => "Oct" | 11 => "Nov" | 12 => "Dec"
  | _ => ""

/-- Two-digit zero padding, as in `strftime` `%d`, `%H`, `%M`. -/
def pad2 (n : Nat) : String := if n < 10 then "0" ++ toString n else toString n

/-- The timestamp part of `get_long_str` (source lines 143-148): current-year
mtimes render via `strftime("%b %d %H:%M")`, others via `strftime("%b %d")`
followed by a space and `str(file_year).rjust(5)`. -/
def formatMtime (clock : Clock) (mtimeVal : Int) : String :=
  let t := clock.localtime mtimeVal
  if t.year == clock.todayYear then
    monthAbbrev t.month ++ " " ++ pad2 t.day ++ " " ++ pad2 t.hour ++ ":" ++ pad2 t.minute
  else
    monthAbbrev t.month ++ " " ++ pad2 t.day ++ " " ++ pyRjust (toString t.year) 5

/-- Models `FileInfo.get_long_str(link_width, owner_width, group_width,
size_width)`.  It first calls `get_long_info` (re-fetching the metadata), then
right-justifies the numeric and name fields, decorates directory names with
colour escapes and symlink names with `" -> "` plus the resolved target, and
joins the seven fields with single spaces. -/
def FileInfo.get_long_str (fs : FS) (clock : Clock) (f : FileInfo)
    (link_width owner_width group_width size_width : Nat) : Except PyError String := do
  match fs.lstatOf f.path with
  | none => .error (.fileNotFound f.path)
  | some st =>
      match fs.pwdb st.st_uid, fs.grdb st.st_gid with
      | some ow, some gr =>
          let link_padded := pyRjust (toString st.st_nlink) link_width
          let owner_padded := pyRjust ow owner_width
          let group_padded := pyRjust gr group_width
          let size_padded := pyRjust (toString st.st_size) size_width
          let name1 := if f.file_type = .DIR then
              Color_BOLD ++ Color_BLUE ++ f.name ++ Color_END else f.name
          let name2 := if f.file_type = .LNK then
              name1 ++ " -> " ++ fs.resolveOf f.path else name1
          let timestamp := formatMtime clock st.st_mtime
          .ok (filemode st.st_mode ++ " " ++ link_padded ++ " " ++ owner_padded
                ++ " " ++ group_padded ++ " " ++ size_padded ++ " " ++ timestamp
                ++ " " ++ name2)
      | _, _ => .error .keyError

/-- Models `FileInfo.get_children(include_hidden)`: iterate the directory
(`NotADirectoryError` for a non-directory), filter out children whose NAME
starts with `'.'` unless hidden files are requested, and build a `FileInfo`
for each remaining child. -/
def FileInfo.get_children (fs : FS) (f : FileInfo) (include_hidden : Bool) :
    Except PyError (List FileInfo) := do
  match fs.childrenOf f.path with
  | none => .error (.notADirectory f.path)
  | some paths =>
      let sel := if include_hidden then paths
        else paths.filter (fun p => !(startsWithDot (pathName p)))
      sel.mapM (FileInfo.init fs)

/-! ## Sorting (main, source lines 243 and 252)

Both renderers run `children.sort(key=lambda child: child.name.lower().strip('.'))`.
Python's `list.sort` is a stable sort comparing only the keys (strings compared
lexicographically by code point, as Lean's `String` order does); any stable
sort by a total preorder computes the same list, so it is modelled with
`List.insertionSort`, whose `orderedInsert` places the inserted (earlier)
element before equal-keyed (later) elements. -/

/-- Code-point lexicographic order on character lists: exactly how Python
compares the (string) sort keys. -/
def listLE : List Char → List Char → Bool
  | [], _ => true
  | _ :: _, [] => false
  | a :: as, b :: bs => if a < b then true else if b < a then false else listLE as bs

/-- Python's `<=` on strings (lexicographic by code point). -/
def pyStrLE (a b : String) : Bool := listLE a.data b.data

def listLE_total : ∀ a b : List Char, listLE a b = true ∨ listLE b a = true
  | [], _ => .inl rfl
  | _ :: _, [] => .inr rfl
  | a :: as, b :: bs => by
      rcases lt_trichotomy a b with h | h | h
      · left; simp [listLE, h]
      · subst h
        rcases listLE_total as bs with h2 | h2
        · left; simp [listLE, h2]
        · right; simp [listLE, h2]
      · right; simp [listLE, h]

def listLE_trans : ∀ a b c : List Char,
    listLE a b = true → listLE b c = true → listLE a c = true
  | [], _, _, _, _ => rfl
  | _ :: _, [], _, h, _ => by simp [listLE] at h
  | _ :: _, _ :: _, [], _, h2 => by simp [listLE] at h2
  | a :: as, b :: bs, c :: cs, h1, h2 => by
      simp only [listLE] at h1 h2 ⊢
      rcases lt_trichotomy a b with hab | hab | hab
      · rcases lt_trichotomy b c with hbc | hbc | hbc
        · simp [lt_trans hab hbc]
        · subst hbc; simp [hab]
        · simp [hab, asymm hab, hbc, asymm hbc] at h2
      · subst hab
        rcases lt_trichotomy a c with hac | hac | hac
        · simp [hac]
        · subst hac
          simp only [lt_irrefl, if_false, if_neg (lt_irrefl a)] at h1 h2 ⊢
          exact listLE_trans as bs cs h1 h2
        · simp [asymm hac, hac] at h2
      · simp [hab, asymm hab] at h1

/-- The sort key of source lines 243/252: `name.lower().strip('.')` —
lowercase, then `'.'` stripped from BOTH ends. -/
def sortKeyOf (name : String) : String := pyStripDots (pyLower name)

/-- The comparison used by `children.sort`. -/
def childLE (a b : FileInfo) : Prop := pyStrLE (sortKeyOf a.name) (sortKeyOf b.name) = true

instance : DecidableRel childLE := fun a b =>
  inferInstanceAs (Decidable (pyStrLE (sortKeyOf a.name) (sortKeyOf b.name) = true))

instance : IsTotal FileInfo childLE :=
  ⟨fun a b => listLE_total (sortKeyOf a.name).data (sortKeyOf b.name).data⟩

instance : IsTrans FileInfo childLE :=
  ⟨fun _ _ _ h h2 => listLE_trans _ _ _ h h2⟩

/-- Models `children.sort(key=...)` (stable). -/
def sortChildren (children : List FileInfo) : List FileInfo :=
  List.insertionSort childLE children

/-! ## The `textwrap` module (defaults, as called by `textwrap.fill(text, width)`)

The model covers the code paths exercised by default options
(`expand_tabs=True, replace_whitespace=True, fix_sentence_endings=False,
break_long_words=True, drop_whitespace=True, break_on_hyphens=True,
max_lines=None`, empty indents) on texts WITHOUT tab or hyphen characters:
tab expansion is then the identity and the hyphenated-word / em-dash branches
of `wordsep_re` and `_handle_long_word` never fire, so `_split` yields exactly
the maximal whitespace / non-whitespace runs.  `pyls` feeds `fill` file names
joined with newlines; the theorems below carry the no-tab/no-hyphen domain as
hypotheses where it matters. -/

/-- The six characters of `textwrap._whitespace` (US-ASCII whitespace). -/
def isPyWs (c : Char) : Bool :=
  c == ' ' || c == '\t' || c == '\n' || c == '\x0b' || c == '\x0c' || c == '\r'

/-- Models `TextWrapper._munge_whitespace`: each whitespace character becomes
a single space (tab expansion is the identity on tab-free text). -/
def munge (l : List Char) : List Char := l.map (fun c => if isPyWs c then ' ' else c)

/-- Groups a character list into its maximal runs of characters sharing the
value of the predicate `p` (runs are nonempty and adjacent runs differ on
`p`). -/
def runsBy (p : Char → Bool) : List Char → List (List Char)
  | [] => []
  | c :: cs =>
      match runsBy p cs with
      | (d :: run) :: rest =>
          if p c == p d then (c :: d :: run) :: rest
          else [c] :: (d :: run) :: rest
      | _ => [[c]]

/-- Space-or-not, the run classification of `wordsep_re`. -/
def spaceP (c : Char) : Bool := c == ' '

/-- Splits a character list into its maximal runs of spaces / non-spaces:
`TextWrapper._split` on munged, hyphen-free text. -/
def splitRuns (l : List Char) : List (List Char) := runsBy spaceP l

/-- Total length of a chunk list. -/
def chunksLen (l : List (List Char)) : Nat := (l.map List.length).sum

/-- A chunk that `chunk.strip() == ''` classifies as whitespace (post-munge,
all its characters are spaces; the empty chunk also qualifies). -/
def isWsChunk (c : List Char) : Bool := c.all (· == ' ')

/-- The inner greedy loop of `_wrap_chunks`: pop chunks onto the current line
while they fit.  Returns the taken chunks and the remainder. -/
def greedyTake (width : Nat) : Nat → List (List Char) → List (List Char) × List (List Char)
  | _, [] => ([], [])
  | curLen, c :: cs =>
      if curLen + c.length ≤ width then
        let tr := greedyTake width (curLen + c.length) cs
        (c :: tr.1, tr.2)
      else ([], c :: cs)

/-- Drop a trailing whitespace chunk from the current line
(`drop_whitespace`, end-of-line case). -/
def dropTrailWs (cur : List (List Char)) : List (List Char) :=
  match cur.getLast? with
  | some last => if isWsChunk last then cur.dropLast else cur
  | none => cur

/-- The middle of one `_wrap_chunks` iteration: fill the line greedily, then
break an over-wide next chunk (`_handle_long_word` with
`break_long_words=True` and no hyphens in the chunk; `space_left` is
`width - cur_len`).  Returns the chunks of the current line and the remaining
chunks. -/
def lineSplit (width : Nat) (chunks1 : List (List Char)) :
    List (List Char) × List (List Char) :=
  let tr := greedyTake width 0 chunks1
  match tr.2 with
  | c :: cs =>
      if width < c.length then
        let spaceLeft := width - chunksLen tr.1
        (tr.1 ++ [c.take spaceLeft], c.drop spaceLeft :: cs)
      else (tr.1, c :: cs)
  | [] => (tr.1, [])

/-- One iteration of the `while chunks:` loop of `_wrap_chunks`: drop a
leading whitespace chunk (once lines have been emitted), fill the line
greedily with `_handle_long_word` for over-wide chunks, drop a trailing
whitespace chunk.  Returns the chunks of the current line and the remaining
chunks.  `width ≥ 1` always holds at the call site (`_wrap_chunks` raises
`ValueError` for `width <= 0` before the loop). -/
def nextLine (width : Nat) (chunks : List (List Char)) (hasLines : Bool) :
    List (List Char) × List (List Char) :=
  let chunks1 := match chunks with
    | c :: cs => if hasLines && isWsChunk c then cs else c :: cs
    | [] => []
  let s := lineSplit width chunks1
  (dropTrailWs s.1, s.2)

/-- Measure for the outer loop of `_wrap_chunks`: total character count plus
chunk count. -/
def wrapMeasure (l : List (List Char)) : Nat := chunksLen l + l.length

/-- The outer loop of `_wrap_chunks` (defaults: `max_lines=None`, empty
indents), with explicit fuel so that the definition is structurally
recursive: repeatedly form a line; emit it unless it came out empty
(`if cur_line:`); afterwards lines exist, so the leading-whitespace drop is
enabled.  By `nextLine_measure`, `wrapMeasure chunks` strictly decreases
every iteration, so fuel `wrapMeasure chunks + 1` never runs out
(`wrapLinesGo_congr` below); the `fuel = 0` branch is unreachable.  The call
site guarantees `width ≥ 1` (`ValueError` otherwise); the `max 1` clamp only
makes the recursion well behaved for `width = 0`. -/
def wrapLinesGo (fuel width : Nat) (chunks : List (List Char)) (hasLines : Bool) :
    List (List Char) :=
  match fuel, chunks with
  | _, [] => []
  | 0, _ :: _ => []
  | fuel + 1, c :: cs =>
      let s := nextLine (max 1 width) (c :: cs) hasLines
      if s.1.isEmpty then wrapLinesGo fuel width s.2 hasLines
      else s.1.flatten :: wrapLinesGo fuel width s.2 true

/-- `_wrap_chunks` itself: run the loop with enough fuel. -/
def wrapLines (width : Nat) (chunks : List (List Char)) (hasLines : Bool) :
    List (List Char) :=
  wrapLinesGo (wrapMeasure chunks + 1) width chunks hasLines

/-- Models `textwrap.fill(text, width)` with default options on tab-free,
hyphen-free text: munge whitespace to spaces, split into chunks, wrap, and
join the lines with newlines.  `_wrap_chunks` raises `ValueError` when
`width <= 0`. -/
def pyFill (text : String) (width : Nat) : Except PyError String :=
  if width = 0 then .error .valueError
  else
    .ok (pyJoin "\n"
      ((wrapLines width (splitRuns (munge text.data)) false).map String.mk))

/-! ## `main` (source lines 219-255) -/

/-- The parsed command line.  `argparse` guarantees `files` is nonempty: with
no positional arguments the default `'.'` (a string) is iterated
character-wise by `for file in args.files`, yielding `["."]`.  `term_width`
is the column count from `shutil.get_terminal_size()` (line 238). -/
structure Args where
  all : Bool
  long : Bool
  files : List String
  term_width : Nat

/-- Lines 233-236 of `main`: the four column maxima, computed over the
top-level target `FileInfo` list (NOT over the children later printed).
`max([...], key=len)` raises `ValueError` on an empty list; applying `len`
to a `None` owner or group raises `TypeError`. -/
def computeWidths (files : List FileInfo) : Except PyError (Nat × Nat × Nat × Nat) := do
  let links ← pyMaxByLen (files.map (fun f => pyStrOptNat f.num_links))
  let owner ←
    if files.isEmpty then (.error .valueError : Except PyError String)
    else if (files.map (fun f => f.owner)).contains none then .error .typeError
    else pyMaxByLen ((files.map (fun f => f.owner)).reduceOption)
  let group ←
    if files.isEmpty then (.error .valueError : Except PyError String)
    else if (files.map (fun f => f.group)).contains none then .error .typeError
    else pyMaxByLen ((files.map (fun f => f.group)).reduceOption)
  let size ← pyMaxByLen (files.map (fun f => pyStrOptNat f.size))
  .ok (links.length, owner.length, group.length, size.length)

/-- The `for child in children: print(...)` part of the long branch (lines
245-248): output accumulates line by line, so lines printed before a raised
exception survive. -/
def renderLongChildren (fs : FS) (clock : Clock)
    (lw ow gw sw : Nat) : List FileInfo → List String × Option PyError
  | [] => ([], none)
  | c :: cs =>
      match FileInfo.get_long_str fs clock c lw ow gw sw with
      | .error e => ([], some e)
      | .ok s =>
          let rest := renderLongChildren fs clock lw ow gw sw cs
          (s :: rest.1, rest.2)

/-- The `for file in files:` loop of the long branch (lines 241-248). -/
def longLoop (fs : FS) (clock : Clock) (lw ow gw sw : Nat) (all : Bool) :
    List FileInfo → List String × Option PyError
  | [] => ([], none)
  | f :: rest =>
      match FileInfo.get_children fs f all with
      | .error e => ([], some e)
      | .ok children =>
          let out := renderLongChildren fs clock lw ow gw sw (sortChildren children)
          match out.2 with
          | some e => (out.1, some e)
          | none =>
              let tail := longLoop fs clock lw ow gw sw all rest
              (out.1 ++ tail.1, tail.2)

/-- Lines 252-255 for one target: sort the children, compute the longest name
(`ValueError` on an empty directory), left-justify every name to it, and
wrap the newline-joined names with `textwrap.fill`. -/
def renderShortDir (term_width : Nat) (children : List FileInfo) :
    Except PyError String := do
  let sorted := sortChildren children
  let longest ← pyMaxByLen (sorted.map (fun c => c.name))
  let padded := sorted.map (fun c => pyLjust c.name longest.length)
  pyFill (pyJoin "\n" padded) term_width

/-- The `for file in files:` loop of the short branch (lines 250-255). -/
def shortLoop (fs : FS) (all : Bool) (term_width : Nat) :
    List FileInfo → List String × Option PyError
  | [] => ([], none)
  | f :: rest =>
      match FileInfo.get_children fs f all with
      | .error e => ([], some e)
      | .ok children =>
          match renderShortDir term_width children with
          | .error e => ([], some e)
          | .ok s =>
              let tail := shortLoop fs all term_width rest
              (s :: tail.1, tail.2)

/-- Models `main()` (source lines 219-255): build a `FileInfo` per target
(line 223's `multiple_dirs` is commented out, so no `path:` headers exist
anywhere); call `get_long_info` on each target when `-l` was given; compute
the four column widths over the TARGETS; then run the long or short branch
over the targets.  The result is the list of `print` outputs produced, plus
the uncaught exception (if any) that aborted the run with a traceback and a
nonzero exit status. -/
def main (fs : FS) (clock : Clock) (args : Args) : List String × Option PyError :=
  match args.files.mapM (FileInfo.init fs) with
  | .error e => ([], some e)
  | .ok files0 =>
      match (if args.long then files0.mapM (FileInfo.get_long_info fs) else .ok files0) with
      | .error e => ([], some e)
      | .ok files =>
          match computeWidths files with
          | .error e => ([], some e)
          | .ok (lw, ow, gw, sw) =>
              if args.long then longLoop fs clock lw ow gw sw args.all files
              else shortLoop fs args.all args.term_width files

/-! ## Concrete fixtures for the closed evaluations -/

def stDirD : LStat := ⟨0o040755, 2, 4096, 100, 0, 0⟩

def stFileX : LStat := ⟨0o100644, 1, 10, 100, 0, 0⟩

def stFileY : LStat := ⟨0o100644, 12, 1000, 100, 0, 0⟩

def stFileZ : LStat := ⟨0o100644, 1, 7, 100, 0, 0⟩

def stPlain : LStat := ⟨0o100644, 1, 5, 100, 0, 0⟩

def stLink : LStat := ⟨0o120777, 1, 8, 100, 0, 0⟩

/-- A small filesystem: directories `d` (children `x`, `y`) and `e`
(child `z`), a plain file `f.txt`, a symlink `latest` resolving to
`/data/v3`, and nothing else (`nope` does not exist).  All uids and gids
resolve to `u` and `g`. -/
def fsDemo : FS where
  lstatOf p :=
    if p = "d" then some stDirD
    else if p = "d/x" then some stFileX
    else if p = "d/y" then some stFileY
    else if p = "e" then some stDirD
    else if p = "e/z" then some stFileZ
    else if p = "f.txt" then some stPlain
    else if p = "latest" then some stLink
    else none
  statOf _ := none
  childrenOf p :=
    if p = "d" then some ["d/x", "d/y"]
    else if p = "e" then some ["e/z"]
    else none
  resolveOf p := if p = "latest" then "/data/v3" else p
  pwdb _ := some "u"
  grdb _ := some "g"

/-- A clock under which every mtime falls in January 2019 while the current
year is 2026. -/
def clock2019 : Clock where
  localtime _ := ⟨2019, 1, 5, 14, 30⟩
  todayYear := 2026

/-- A clock under which every mtime falls in the current year. -/
def clockNow : Clock where
  localtime _ := ⟨2026, 1, 5, 14, 30⟩
  todayYear := 2026

/-- A bare regular-file entry (as a renderer receives it). -/
def fiReg (n : String) : FileInfo := { path := n, name := n, file_type := .REG }

/-- The `latest` symlink entry after `__init__`. -/
def fiLatest : FileInfo := { path := "latest", name := "latest", file_type := .LNK }

/-! ## Spec-side definitions (written from the specification's words, for
comparison against the code model) -/

/-- The sort key as claim C6 words it: the name lowercased with LEADING `'.'`
characters stripped (only). -/
def specSortKey (name : String) : String :=
  String.mk ((pyLower name).data.dropWhile (· == '.'))

/-- The C6 comparison. -/
def specChildLE (a b : FileInfo) : Prop :=
  pyStrLE (specSortKey a.name) (specSortKey b.name) = true

instance : DecidableRel specChildLE := fun a b =>
  inferInstanceAs (Decidable (pyStrLE (specSortKey a.name) (specSortKey b.name) = true))

/-- Stable sort by the C6 spec key. -/
def specSortChildren (children : List FileInfo) : List FileInfo :=
  List.insertionSort specChildLE children

/-- The short-form wrapping as claim C7 words it: right-pad every name to the
longest name's length, join padded names with single spaces, and wrap
greedily into lines no wider than the terminal width, breaking only on name
boundaries and never splitting a name. -/
def specWrapGo (width : Nat) (cur : String) : List String → List String
  | [] => [cur]
  | n :: rest =>
      if cur.length + 1 + n.length ≤ width then specWrapGo width (cur ++ " " ++ n) rest
      else cur :: specWrapGo width n rest

/-- The C7 spec renderer: the list of output lines. -/
def specShortLines (width : Nat) (names : List String) : List String :=
  match pyMaxByLen names with
  | .error _ => []
  | .ok longest =>
      match names.map (fun n => pyLjust n longest.length) with
      | [] => []
      | p :: ps => specWrapGo width p ps

/-- The current-year timestamp as claim C8 words it: month, day and
hour:minute, with no year field. -/
def specCurrentYearStamp (t : BrokenTime) : String :=
  monthAbbrev t.month ++ " " ++ pad2 t.day ++ " " ++ pad2 t.hour ++ ":" ++ pad2 t.minute

/-- The other-year timestamp as claim C8 words it: month and day followed by
the year right-justified in a 5-character field, with no clock time. -/
def specOtherYearStamp (t : BrokenTime) : String :=
  monthAbbrev t.month ++ " " ++ pad2 t.day ++ " " ++ pyRjust (toString t.year) 5

/-- The listing of one target directory in the long branch: nothing but the
per-child `get_long_str` lines. -/
def longDirLines (fs : FS) (clock : Clock) (lw ow gw sw : Nat) (all : Bool)
    (f : FileInfo) : List String :=
  match FileInfo.get_children fs f all with
  | .error _ => []
  | .ok children => (renderLongChildren fs clock lw ow gw sw (sortChildren children)).1

/-! ## Claim C7: word machinery -/

/-- Blank characters of the rendered output: the space of munged text and
the newline that joins lines. -/
def isBlank (c : Char) : Bool := c == ' ' || c == '\n'

/-- Whether a character list is empty or starts with a blank. -/
def headBlank : List Char → Bool
  | c :: _ => isBlank c
  | [] => true

/-- Maximal non-blank runs: the words of a rendered text. -/
def wordsOf (l : List Char) : List (List Char) :=
  (runsBy isBlank l).filter (fun r => !(headBlank r))

/-- The words of a rendered string. -/
def strWords (s : String) : List String := (wordsOf s.data).map String.mk

/-- A chunk that is a word: nonempty with no blank characters. -/
def isWordChunk (c : List Char) : Bool := !c.isEmpty && c.all (fun x => !(isBlank x))

/-- A chunk that is whitespace: nonempty, all spaces. -/
def isSpChunk (c : List Char) : Bool := !c.isEmpty && c.all (fun x => x == ' ')

/-- Chunk lists as `_wrap_chunks` receives them: words and space runs
strictly alternating; the flag tells whether a word comes first. -/
def chunksAltB : Bool → List (List Char) → Bool
  | _, [] => true
  | true, c :: cs => isWordChunk c && chunksAltB false cs
  | false, c :: cs => isSpChunk c && chunksAltB true cs

/-- The chunk list produced by splitting the padded, newline-joined,
munged names: each name followed by its padding fused with the joining
space (the last name keeps only its padding, when nonzero). -/
def nameChunks (maxLen : Nat) : List String → List (List Char)
  | [] => []
  | [n] =>
      if n.length < maxLen then [n.data, List.replicate (maxLen - n.length) ' ']
      else [n.data]
  | n :: rest =>
      n.data :: List.replicate (maxLen - n.length + 1) ' ' :: nameChunks maxLen rest

/-- `chunks1` of `nextLine` is `chunks` or its tail. -/
theorem nextLine_chunks1_cases (c : List Char) (cs : List (List Char))
    (hasLines : Bool) :
    (if hasLines && isWsChunk c then cs else c :: cs) = cs ∨
      (if hasLines && isWsChunk c then cs else c :: cs) = c :: cs := by
  cases h : hasLines && isWsChunk c
  · right; simp [h]
  · left; simp [h]

/-- `greedyTake` splits its input: taken ++ rest = input. -/
theorem greedyTake_append (width : Nat) :
    ∀ (n : Nat) (l : List (List Char)),
      (greedyTake width n l).1 ++ (greedyTake width n l).2 = l := by
  intro n l
  induction l generalizing n with
  | nil => simp [greedyTake]
  | cons c cs ih =>
      by_cases h : n + c.length ≤ width
      · simp only [greedyTake, if_pos h]
        simpa using ih (n + c.length)
      · simp [greedyTake, if_neg h]

/-- Along `greedyTake`, the accumulated length of the taken chunks stays
within the width: `n + chunksLen taken ≤ width` provided `n ≤ width`. -/
theorem greedyTake_len_le (width : Nat) :
    ∀ (n : Nat) (l : List (List Char)), n ≤ width →
      n + chunksLen (greedyTake width n l).1 ≤ width := by
  intro n l
  induction l generalizing n with
  | nil => intro h; simpa [greedyTake, chunksLen] using h
  | cons c cs ih =>
      intro h
      by_cases hfit : n + c.length ≤ width
      · have h2 := ih (n + c.length) hfit
        simp only [greedyTake, if_pos hfit, chunksLen, List.map_cons, List.sum_cons] at h2 ⊢
        omega
      · simpa [greedyTake, if_neg hfit, chunksLen] using h

/-- When `greedyTake` stops with a remainder, the next chunk did not fit. -/
theorem greedyTake_stop (width : Nat) :
    ∀ (n : Nat) (l : List (List Char)) (c : List Char) (cs : List (List Char)),
      (greedyTake width n l).2 = c :: cs →
      width < n + chunksLen (greedyTake width n l).1 + c.length := by
  intro n l
  induction l generalizing n with
  | nil => intro c cs h; simp [greedyTake] at h
  | cons d ds ih =>
      intro c cs h
      by_cases hfit : n + d.length ≤ width
      · simp only [greedyTake, if_pos hfit] at h ⊢
        have h3 := ih (n + d.length) c cs h
        simp only [chunksLen, List.map_cons, List.sum_cons] at h3 ⊢
        omega
      · simp only [greedyTake, if_neg hfit] at h ⊢
        injection h with h1 h2
        subst h1
        simp only [chunksLen, List.map_nil, List.sum_nil]
        omega

theorem chunksLen_append (a b : List (List Char)) :
    chunksLen (a ++ b) = chunksLen a + chunksLen b := by
  simp [chunksLen]

/-- Every `_wrap_chunks` iteration makes progress: the remaining chunks after
`lineSplit` are strictly smaller (or exhausted). -/
theorem lineSplit_measure (width : Nat) (hw : 1 ≤ width) (l : List (List Char)) :
    (lineSplit width l).2 = [] ∨ wrapMeasure (lineSplit width l).2 < wrapMeasure l := by
  cases h : (greedyTake width 0 l).2 with
  | nil => left; simp [lineSplit, h]
  | cons c cs =>
      right
      have happ := greedyTake_append width 0 l
      rw [h] at happ
      have hstop := greedyTake_stop width 0 l c cs h
      have hle := greedyTake_len_le width 0 l (Nat.zero_le _)
      simp only [lineSplit, h]
      set t := (greedyTake width 0 l).1 with ht
      rw [← happ]
      by_cases hlong : width < c.length
      · simp only [if_pos hlong, wrapMeasure, chunksLen, List.map_append,
          List.sum_append, List.map_cons, List.sum_cons, List.length_append,
          List.length_cons, List.length_drop]
        simp only [chunksLen] at hstop hle
        omega
      · simp only [if_neg hlong, wrapMeasure, chunksLen, List.map_append,
          List.sum_append, List.map_cons, List.sum_cons, List.length_append,
          List.length_cons]
        simp only [chunksLen] at hstop hle
        omega

/-- `nextLine` makes progress on a nonempty chunk list. -/
theorem nextLine_measure (width : Nat) (hw : 1 ≤ width) (c : List Char)
    (cs : List (List Char)) (hasLines : Bool) :
    wrapMeasure (nextLine width (c :: cs) hasLines).2 < wrapMeasure (c :: cs) := by
  have hm : wrapMeasure cs < wrapMeasure (c :: cs) := by
    simp only [wrapMeasure, chunksLen, List.map_cons, List.sum_cons, List.length_cons]
    omega
  have hpos : 0 < wrapMeasure (c :: cs) := by
    simp only [wrapMeasure, List.length_cons]
    omega
  simp only [nextLine]
  rcases nextLine_chunks1_cases c cs hasLines with hch | hch <;> rw [hch]
  · rcases lineSplit_measure width hw cs with h2 | h2
    · rw [h2]
      simpa only [wrapMeasure, chunksLen, List.map_nil, List.sum_nil,
        List.length_nil, Nat.add_zero, Nat.zero_add] using hpos
    · exact lt_trans h2 hm
  · rcases lineSplit_measure width hw (c :: cs) with h2 | h2
    · rw [h2]
      simpa only [wrapMeasure, chunksLen, List.map_nil, List.sum_nil,
        List.length_nil, Nat.add_zero, Nat.zero_add] using hpos
    · exact h2

/-- The loop result does not depend on the fuel, as long as the fuel exceeds
the measure. -/
theorem wrapLinesGo_congr :
    ∀ (fuel fuel' width : Nat) (chunks : List (List Char)) (hasLines : Bool),
      wrapMeasure chunks < fuel → wrapMeasure chunks < fuel' →
      wrapLinesGo fuel width chunks hasLines = wrapLinesGo fuel' width chunks hasLines := by
  intro fuel
  induction fuel with
  | zero => intro fuel' width chunks hasLines h; omega
  | succ fuel ih =>
      intro fuel' width chunks hasLines h h'
      match chunks with
      | [] =>
          cases fuel' with
          | zero => omega
          | succ f => rfl
      | c :: cs =>
          cases fuel' with
          | zero => omega
          | succ f =>
              simp only [wrapLinesGo]
              have hdec := nextLine_measure (max 1 width) (le_max_left 1 width) c cs hasLines
              by_cases hempty : (nextLine (max 1 width) (c :: cs) hasLines).1.isEmpty = true
              · rw [if_pos hempty, if_pos hempty]
                exact ih f width (nextLine (max 1 width) (c :: cs) hasLines).2 hasLines
                  (by omega) (by omega)
              · rw [if_neg hempty, if_neg hempty]
                rw [ih f width (nextLine (max 1 width) (c :: cs) hasLines).2 true
                  (by omega) (by omega)]

/-- Unfolding `wrapLines` one iteration. -/
theorem wrapLines_cons (width : Nat) (c : List Char) (cs : List (List Char))
    (hasLines : Bool) :
    wrapLines width (c :: cs) hasLines =
      (let s := nextLine (max 1 width) (c :: cs) hasLines
       if s.1.isEmpty then wrapLines width s.2 hasLines
       else s.1.flatten :: wrapLines width s.2 true) := by
  have hdec := nextLine_measure (max 1 width) (le_max_left 1 width) c cs hasLines
  simp only [wrapLines, wrapLinesGo]
  by_cases hempty : (nextLine (max 1 width) (c :: cs) hasLines).1.isEmpty = true
  · rw [if_pos hempty, if_pos hempty]
    exact wrapLinesGo_congr (wrapMeasure (c :: cs)) (wrapMeasure (nextLine (max 1 width) (c :: cs) hasLines).2 + 1)
      width (nextLine (max 1 width) (c :: cs) hasLines).2 hasLines (by omega) (by omega)
  · rw [if_neg hempty, if_neg hempty]
    rw [wrapLinesGo_congr (wrapMeasure (c :: cs)) (wrapMeasure (nextLine (max 1 width) (c :: cs) hasLines).2 + 1)
      width (nextLine (max 1 width) (c :: cs) hasLines).2 true (by omega) (by omega)]

/-! ## Basic facts about the embedded operations -/

/-- `FileInfo.__init__` sets `path` and `name` from its argument and leaves
every metadata field `None`. -/
theorem FileInfo.init_fields (fs : FS) (p : String) (f : FileInfo)
    (h : FileInfo.init fs p = .ok f) :
    f.path = p ∧ f.name = pathName p ∧ f.owner = none ∧ f.group = none ∧
      f.num_links = none ∧ f.size = none := by
  simp only [FileInfo.init] at h
  cases hst : fs.lstatOf p with
  | none => simp only [hst] at h; exact Except.noConfusion h
  | some st =>
      simp only [hst] at h
      cases hft : FileType.get_file_type st.st_mode with
      | error e =>
          simp only [hft, bind, Except.bind] at h
          exact Except.noConfusion h
      | ok ft =>
          simp only [hft, bind, Except.bind, Except.ok.injEq] at h
          subst h
          exact ⟨rfl, rfl, rfl, rfl, rfl, rfl⟩

/-- Every `FileInfo` built by the target loop of `main` (line 226-227) still
has `owner = None` and `group = None`. -/
theorem mapM_init_none (fs : FS) :
    ∀ (ps : List String) (fl : List FileInfo),
      ps.mapM (FileInfo.init fs) = .ok fl →
      ∀ f ∈ fl, f.owner = none ∧ f.group = none := by
  intro ps
  induction ps with
  | nil =>
      intro fl h f hf
      simp only [List.mapM_nil, pure, Except.pure, Except.ok.injEq] at h
      subst h
      cases hf
  | cons p ps ih =>
      intro fl h f hf
      rw [List.mapM_cons] at h
      cases hinit : FileInfo.init fs p with
      | error e =>
          simp only [hinit, bind, Except.bind] at h
          exact Except.noConfusion h
      | ok f0 =>
          cases hrest : ps.mapM (FileInfo.init fs) with
          | error e =>
              simp only [hinit, hrest, bind, Except.bind] at h
              exact Except.noConfusion h
          | ok fl0 =>
              simp only [hinit, hrest, bind, Except.bind, pure, Except.pure,
                Except.ok.injEq] at h
              subst h
              rcases List.mem_cons.mp hf with hf2 | hf2
              · subst hf2
                obtain ⟨-, -, how, hgr, -, -⟩ := FileInfo.init_fields fs p f hinit
                exact ⟨how, hgr⟩
              · exact ih fl0 hrest f hf2

/-- `get_long_info` does not change `path`, `name` or `file_type`. -/
theorem FileInfo.get_long_info_preserves (fs : FS) (f f' : FileInfo)
    (h : FileInfo.get_long_info fs f = .ok f') :
    f'.path = f.path ∧ f'.name = f.name ∧ f'.file_type = f.file_type := by
  simp only [FileInfo.get_long_info] at h
  cases hst : fs.lstatOf f.path with
  | none => simp only [hst] at h; exact Except.noConfusion h
  | some st =>
      simp only [hst] at h
      cases how : fs.pwdb st.st_uid with
      | none => simp only [how] at h; exact Except.noConfusion h
      | some ow =>
          cases hgr : fs.grdb st.st_gid with
          | none => simp only [how, hgr] at h; exact Except.noConfusion h
          | some gr =>
              simp only [how, hgr, Except.ok.injEq] at h
              subst h
              exact ⟨rfl, rfl, rfl⟩

/-- With every owner field still `None` and a nonempty target list, the width
computation of line 234 raises `TypeError`. -/
theorem computeWidths_owner_none (fl : List FileInfo) (hne : fl ≠ [])
    (hnone : ∀ f ∈ fl, f.owner = none) :
    computeWidths fl = .error .typeError := by
  cases fl with
  | nil => exact absurd rfl hne
  | cons f rest =>
      have hf : f.owner = none := hnone f (List.mem_cons_self f rest)
      simp only [computeWidths, List.map_cons, pyMaxByLen, bind, Except.bind,
        List.isEmpty_cons, Bool.false_eq_true, if_false, hf, List.contains_cons,
        beq_self_eq_true, Bool.true_or, if_true]

/-- Inversion for a successful `mapM` over a cons. -/
theorem mapM_cons_ok {α β : Type} (g : α → Except PyError β) (a : α) (l : List α)
    (out : List β) (h : (a :: l).mapM g = .ok out) :
    ∃ b bs, g a = .ok b ∧ l.mapM g = .ok bs ∧ out = b :: bs := by
  rw [List.mapM_cons] at h
  cases hga : g a with
  | error e => simp only [hga, bind, Except.bind] at h; exact Except.noConfusion h
  | ok b =>
      cases hl : l.mapM g with
      | error e => simp only [hga, hl, bind, Except.bind] at h; exact Except.noConfusion h
      | ok bs =>
          simp only [hga, hl, bind, Except.bind, pure, Except.pure, Except.ok.injEq] at h
          exact ⟨b, bs, rfl, rfl, h.symm⟩

/-! ## Claim C1 -/

/-- C1: FALSE of the code (code bug).  `main` computes the four long-format
column widths over the list of CLI TARGETS (lines 233-236 iterate `files`),
while the rows it prints are the targets' CHILDREN: for target directory `d`
with link count 2 whose children have link counts 1 and 12, the link column
width is `len("2") = 1`, so the children's link fields render as `"1"` and
`"12"` — not right-justified to the batch maximum width 2 (`" 1"`, `"12"`)
that the claim asserts. -/
theorem c1_widths_from_targets_not_batch :
    Pyls.main fsDemo clock2019
        { all := false, long := true, files := ["d"], term_width := 80 } =
      (["-rw-r--r-- 1 u g   10 Jan 05  2019 x",
        "-rw-r--r-- 12 u g 1000 Jan 05  2019 y"], none) := by
  decide

/-! ## Claim C2 -/

/-- C2: CONFIRMED.  Whenever the long flag is off, `get_long_info` is never
called, so every target's `owner`/`group` is still `None` when lines 233-236
run; `len(None)` in the owner-width `max` raises `TypeError`, aborting the
run before any short-format listing is printed (the output is empty). -/
theorem c2_short_mode_type_error (fs : FS) (clock : Clock) (args : Args)
    (fl : List FileInfo)
    (hshort : args.long = false)
    (hbuild : args.files.mapM (FileInfo.init fs) = .ok fl)
    (hne : fl ≠ []) :
    Pyls.main fs clock args = ([], some .typeError) := by
  have hnone : ∀ f ∈ fl, f.owner = none :=
    fun f hf => (mapM_init_none fs args.files fl hbuild f hf).1
  simp only [Pyls.main, hbuild, hshort, Bool.false_eq_true, if_false,
    computeWidths_owner_none fl hne hnone]

/-- Witness for C2 at a concrete input. -/
theorem c2_short_mode_type_error_witness :
    Pyls.main fsDemo clock2019
        { all := false, long := false, files := ["d"], term_width := 80 } =
      ([], some .typeError) :=
  c2_short_mode_type_error fsDemo clock2019
    { all := false, long := false, files := ["d"], term_width := 80 }
    [{ path := "d", name := "d", file_type := .DIR }]
    rfl (by decide) (by decide)

/-! ## Claim C3 -/

/-- C3: FALSE of the code (code bug).  For a directory with zero entries
after filtering, the short-form renderer (lines 252-255) evaluates
`max([], key=len)` and raises `ValueError` instead of emitting nothing —
for every terminal width.  (The full short-mode run would in fact already
have died with `TypeError` at line 234, see C2.) -/
theorem c3_short_render_empty_fails (w : Nat) :
    renderShortDir w [] = .error .valueError := rfl

/-! ## Claim C4 -/

/-- C4: FALSE of the code.  With targets `["nope", "d"]` where `nope` does
not exist, the run prints NOTHING (in particular not
`"nope: No such file or directory."`), does not process the remaining
target `d`, and aborts with an uncaught `FileNotFoundError` (traceback,
nonzero exit). -/
theorem c4_missing_target_counterexample :
    Pyls.main fsDemo clock2019
        { all := false, long := true, files := ["nope", "d"], term_width := 80 } =
      ([], some (.fileNotFound "nope")) ∧
    "nope: No such file or directory." ∉
      (Pyls.main fsDemo clock2019
        { all := false, long := true, files := ["nope", "d"], term_width := 80 }).1 := by
  decide

/-- C4 amended: when a CLI target does not exist (and the targets before it
do), `FileInfo.__init__`'s `lstat` raises `FileNotFoundError`, which nothing
catches: no message is printed, remaining targets are not processed, and the
process exits nonzero with a traceback. -/
theorem c4_missing_target_aborts (fs : FS) (clock : Clock) (args : Args)
    (pre post : List String) (p : String) (flpre : List FileInfo)
    (hfiles : args.files = pre ++ p :: post)
    (hpre : pre.mapM (FileInfo.init fs) = .ok flpre)
    (hmissing : fs.lstatOf p = none) :
    Pyls.main fs clock args = ([], some (.fileNotFound p)) := by
  have hinit : FileInfo.init fs p = .error (.fileNotFound p) := by
    simp [FileInfo.init, hmissing]
  have hmapM : args.files.mapM (FileInfo.init fs) = .error (.fileNotFound p) := by
    rw [hfiles, List.mapM_append, hpre]
    simp only [bind, Except.bind]
    rw [List.mapM_cons, hinit]
    simp only [bind, Except.bind]
  simp only [Pyls.main, hmapM]

/-- Witness for the amended C4 at a concrete input. -/
theorem c4_missing_target_aborts_witness :
    Pyls.main fsDemo clock2019
        { all := false, long := false, files := ["nope"], term_width := 80 } =
      ([], some (.fileNotFound "nope")) :=
  c4_missing_target_aborts fsDemo clock2019
    { all := false, long := false, files := ["nope"], term_width := 80 }
    [] [] "nope" [] rfl rfl (by decide)

/-! ## Claim C5 -/

/-- C5: FALSE of the code.  With the plain file `f.txt` as target, the run
prints NOTHING (the path is never echoed): the long branch reaches
`get_children`, whose `iterdir` raises an uncaught `NotADirectoryError`. -/
theorem c5_plain_file_counterexample :
    Pyls.main fsDemo clock2019
        { all := false, long := true, files := ["f.txt"], term_width := 80 } =
      ([], some (.notADirectory "f.txt")) ∧
    "f.txt" ∉
      (Pyls.main fsDemo clock2019
        { all := false, long := true, files := ["f.txt"], term_width := 80 }).1 := by
  decide

/-- C5 amended: a non-directory first target is never echoed: in long mode
(once targets build, `get_long_info` succeeds and the widths compute), the
loop calls `get_children` on it, `iterdir` raises `NotADirectoryError`,
nothing is printed and the run aborts.  (In short mode the run dies even
earlier, with C2's `TypeError`.) -/
theorem c5_nondirectory_first_target_aborts (fs : FS) (clock : Clock) (args : Args)
    (p : String) (ps : List String) (fl fl2 : List FileInfo)
    (lw ow gw sw : Nat)
    (hlong : args.long = true)
    (hfiles : args.files = p :: ps)
    (hbuild : args.files.mapM (FileInfo.init fs) = .ok fl)
    (hinfo : fl.mapM (FileInfo.get_long_info fs) = .ok fl2)
    (hwidths : computeWidths fl2 = .ok (lw, ow, gw, sw))
    (hnodir : fs.childrenOf p = none) :
    Pyls.main fs clock args = ([], some (.notADirectory p)) := by
  rw [hfiles] at hbuild
  obtain ⟨f1, fl', hinit, hrest, hfl⟩ := mapM_cons_ok _ _ _ _ hbuild
  subst hfl
  obtain ⟨f2, fl2', hinfo2, hrest2, hfl2⟩ := mapM_cons_ok _ _ _ _ hinfo
  subst hfl2
  have hp1 := (FileInfo.init_fields fs p f1 hinit).1
  have hp2 := (FileInfo.get_long_info_preserves fs f1 f2 hinfo2).1
  have hbuild2 : args.files.mapM (FileInfo.init fs) = .ok (f1 :: fl') := by
    rw [hfiles]; exact hbuild
  simp only [Pyls.main, hbuild2, hlong, if_true, hinfo, hwidths]
  simp only [longLoop, FileInfo.get_children, hp2, hp1, hnodir]

/-- Witness for the amended C5 at a concrete input. -/
theorem c5_nondirectory_first_target_aborts_witness :
    Pyls.main fsDemo clock2019
        { all := false, long := true, files := ["f.txt"], term_width := 60 } =
      ([], some (.notADirectory "f.txt")) :=
  c5_nondirectory_first_target_aborts fsDemo clock2019
    { all := false, long := true, files := ["f.txt"], term_width := 60 }
    "f.txt" []
    [{ path := "f.txt", name := "f.txt", file_type := .REG }]
    [{ path := "f.txt", name := "f.txt", file_type := .REG,
       filemode_str := some "-rw-r--r--", num_links := some 1, size := some 5,
       mtime := some 100, uid := some 0, gid := some 0,
       owner := some "u", group := some "g" }]
    1 1 1 1 rfl rfl (by decide) (by decide) (by decide) (by decide)

/-! ## Claim C8 -/

/-- C8: CONFIRMED.  The rendered timestamp is exactly the claim's two
formats: month-day-hour:minute when the modification year equals the current
calendar year, and month-day plus the year right-justified in a 5-character
field otherwise. -/
theorem c8_timestamp_format (clock : Clock) (m : Int) :
    ((clock.localtime m).year = clock.todayYear →
      formatMtime clock m = specCurrentYearStamp (clock.localtime m)) ∧
    ((clock.localtime m).year ≠ clock.todayYear →
      formatMtime clock m = specOtherYearStamp (clock.localtime m)) := by
  constructor
  · intro h
    simp [formatMtime, specCurrentYearStamp, h]
  · intro h
    simp [formatMtime, specOtherYearStamp, h]

/-- Witness for C8, realising the claim's two examples `Jan 05 14:30`
(current year) and `Jan 05  2019` (other year, year right-justified in a
5-character field after the day). -/
theorem c8_timestamp_format_witness :
    formatMtime clock2019 100 = "Jan 05  2019" ∧
      formatMtime clockNow 100 = "Jan 05 14:30" := by
  constructor
  · rw [(c8_timestamp_format clock2019 100).2 (by decide)]
    decide
  · rw [(c8_timestamp_format clockNow 100).1 (by decide)]
    decide

/-! ## Claim C10 -/

/-- C10: CONFIRMED.  A symlink's long-format line shows
`name -> resolved target` (`path.resolve()`), and every metadata field
(mode string, link count, owner, group, size, mtime) comes from `lstat` of
the link itself: the second conjunct shows the rendering is invariant under
arbitrary changes to the environment's link-following `stat` data, which the
code never consults. -/
theorem c10_symlink_long_line (fs : FS) (clock : Clock) (f : FileInfo)
    (lw ow gw sw : Nat) (st : LStat) (owname grname : String)
    (hlnk : f.file_type = .LNK)
    (hst : fs.lstatOf f.path = some st)
    (how : fs.pwdb st.st_uid = some owname)
    (hgr : fs.grdb st.st_gid = some grname) :
    FileInfo.get_long_str fs clock f lw ow gw sw =
      .ok (filemode st.st_mode ++ " " ++ pyRjust (toString st.st_nlink) lw ++ " "
        ++ pyRjust owname ow ++ " " ++ pyRjust grname gw ++ " "
        ++ pyRjust (toString st.st_size) sw ++ " " ++ formatMtime clock st.st_mtime
        ++ " " ++ (f.name ++ " -> " ++ fs.resolveOf f.path)) ∧
    (∀ statOf' : String → Option LStat,
      FileInfo.get_long_str { fs with statOf := statOf' } clock f lw ow gw sw =
        FileInfo.get_long_str fs clock f lw ow gw sw) := by
  constructor
  · simp [FileInfo.get_long_str, hst, how, hgr, hlnk]
  · intro statOf'
    rfl

/-- Witness for C10: the `latest -> /data/v3` symlink of the demo
filesystem. -/
theorem c10_symlink_long_line_witness :
    FileInfo.get_long_str fsDemo clock2019 fiLatest 1 1 1 1 =
      .ok "lrwxrwxrwx 1 u g 8 Jan 05  2019 latest -> /data/v3" := by
  rw [(c10_symlink_long_line fsDemo clock2019 fiLatest 1 1 1 1 stLink "u" "g"
    rfl (by decide) rfl rfl).1]
  decide

/-! ## Claim C6 -/

theorem listLE_refl : ∀ a : List Char, listLE a a = true
  | [] => rfl
  | c :: cs => by simp [listLE, listLE_refl cs]

/-- If `x` does not compare `≼ b`, their sort keys differ. -/
theorem key_ne_of_not_childLE (x b : FileInfo) (h : ¬ childLE x b) :
    sortKeyOf b.name ≠ sortKeyOf x.name := by
  intro hk
  apply h
  unfold childLE pyStrLE
  rw [← hk]
  exact listLE_refl _

/-- Inserting an element whose key equals `k` contributes it at the front of
the `k`-keyed subsequence (nothing with key `k` sits before the insertion
point). -/
theorem filter_orderedInsert_of_eq (k : String) (x : FileInfo)
    (hx : sortKeyOf x.name = k) :
    ∀ l : List FileInfo,
      (List.orderedInsert childLE x l).filter (fun f => sortKeyOf f.name == k) =
        x :: l.filter (fun f => sortKeyOf f.name == k)
  | [] => by simp [List.orderedInsert, List.filter_cons, hx]
  | b :: bs => by
      by_cases hle : childLE x b
      · rw [List.orderedInsert, if_pos hle, List.filter_cons, if_pos (by simp [hx])]
      · have hbk : ¬ (sortKeyOf b.name = k) := by
          rw [← hx]
          exact key_ne_of_not_childLE x b hle
        rw [List.orderedInsert, if_neg hle, List.filter_cons, if_neg (by simp [hbk]),
          List.filter_cons, if_neg (by simp [hbk])]
        exact filter_orderedInsert_of_eq k x hx bs

/-- Inserting an element whose key differs from `k` leaves the `k`-keyed
subsequence untouched. -/
theorem filter_orderedInsert_of_ne (k : String) (x : FileInfo)
    (hx : ¬ sortKeyOf x.name = k) :
    ∀ l : List FileInfo,
      (List.orderedInsert childLE x l).filter (fun f => sortKeyOf f.name == k) =
        l.filter (fun f => sortKeyOf f.name == k)
  | [] => by simp [List.orderedInsert, List.filter_cons, hx]
  | b :: bs => by
      by_cases hle : childLE x b
      · rw [List.orderedInsert, if_pos hle, List.filter_cons, if_neg (by simp [hx])]
      · rw [List.orderedInsert, if_neg hle, List.filter_cons, List.filter_cons]
        rw [filter_orderedInsert_of_ne k x hx bs]

/-- Stability of the modelled sort: for every key value, the subsequence of
entries with exactly that key is preserved in its original order. -/
theorem filter_sortChildren (l : List FileInfo) (k : String) :
    (sortChildren l).filter (fun f => sortKeyOf f.name == k) =
      l.filter (fun f => sortKeyOf f.name == k) := by
  induction l with
  | nil => rfl
  | cons x xs ih =>
      unfold sortChildren at ih
      show (List.orderedInsert childLE x (List.insertionSort childLE xs)).filter _ = _
      by_cases hx : sortKeyOf x.name = k
      · rw [filter_orderedInsert_of_eq k x hx, ih, List.filter_cons, if_pos (by simp [hx])]
      · rw [filter_orderedInsert_of_ne k x hx, ih, List.filter_cons, if_neg (by simp [hx])]

/-- C6: FALSE as stated (the key strips dots from BOTH ends, not only
leading ones): for sibling names `b.` and `b-`, the code's keys are `b` and
`b-` (so `b.` sorts first), while the claim's leading-only keys are `b.` and
`b-` (so `b-` would sort first). -/
theorem c6_sort_key_counterexample :
    (sortChildren [fiReg "b.", fiReg "b-"]).map (fun f => f.name) = ["b.", "b-"] ∧
    (specSortChildren [fiReg "b.", fiReg "b-"]).map (fun f => f.name) = ["b-", "b."] ∧
    sortChildren [fiReg "b.", fiReg "b-"] ≠ specSortChildren [fiReg "b.", fiReg "b-"] := by
  decide

/-- C6 amended: both renderers sort by the key
`name.lower().strip('.')` — lowercase with `'.'` stripped from both ends —
ascending (code-point order), stably: the sort is a permutation, sorted for
the key comparison, preserves the relative order of equal-keyed entries, is
invariant under a leading-dot prefix and under case, and sends `.bashrc`,
`Bashrc`, `bashrc` to the one key `bashrc`. -/
theorem c6_sort_amended :
    (∀ l : List FileInfo, List.Perm (sortChildren l) l) ∧
    (∀ l : List FileInfo, List.Sorted childLE (sortChildren l)) ∧
    (∀ (l : List FileInfo) (k : String),
      (sortChildren l).filter (fun f => sortKeyOf f.name == k) =
        l.filter (fun f => sortKeyOf f.name == k)) ∧
    (∀ s : String, sortKeyOf ("." ++ s) = sortKeyOf s) ∧
    (∀ s t : String, pyLower s = pyLower t → sortKeyOf s = sortKeyOf t) ∧
    sortKeyOf ".bashrc" = "bashrc" ∧ sortKeyOf "Bashrc" = "bashrc" ∧
      sortKeyOf "bashrc" = "bashrc" := by
  refine ⟨fun l => List.perm_insertionSort childLE l,
    fun l => List.sorted_insertionSort childLE l,
    filter_sortChildren,
    fun s => ?_,
    fun s t h => by unfold sortKeyOf; rw [h],
    by decide, by decide, by decide⟩
  simp only [sortKeyOf, pyLower, pyStripDots, String.data_append]
  have hdot : pyLowerChar '.' = '.' := by decide
  simp [hdot, List.dropWhile_cons]

/-- Witness for the amended C6, discharging the case-invariance hypothesis
at a concrete pair. -/
theorem c6_sort_amended_witness :
    List.Perm (sortChildren [fiReg "a"]) [fiReg "a"] ∧ sortKeyOf ".B" = sortKeyOf ".b" :=
  ⟨c6_sort_amended.1 [fiReg "a"], c6_sort_amended.2.2.2.2.1 ".B" ".b" (by decide)⟩

/-! ## Claim C9 -/


/-- C9: FALSE as stated.  With TWO targets `d` and `e` (so the claim asserts
a blank line and a `path:` header before each listing), the output is
exactly the six-field child lines: it contains no `d:` line, no `e:` line
and no blank line. -/
theorem c9_no_header_counterexample :
    (Pyls.main fsDemo clock2019
        { all := false, long := true, files := ["d", "e"], term_width := 80 }).1 =
      ["-rw-r--r-- 1 u g   10 Jan 05  2019 x",
       "-rw-r--r-- 12 u g 1000 Jan 05  2019 y",
       "-rw-r--r-- 1 u g    7 Jan 05  2019 z"] ∧
    "d:" ∉ (Pyls.main fsDemo clock2019
        { all := false, long := true, files := ["d", "e"], term_width := 80 }).1 ∧
    "e:" ∉ (Pyls.main fsDemo clock2019
        { all := false, long := true, files := ["d", "e"], term_width := 80 }).1 ∧
    "" ∉ (Pyls.main fsDemo clock2019
        { all := false, long := true, files := ["d", "e"], term_width := 80 }).1 := by
  decide

/-- C9 amended: NO header is ever printed, for any number of targets — line
223's `multiple_dirs` is commented out, and the long-branch output is
exactly the concatenation of the per-directory listings with nothing
interposed. -/
theorem c9_long_output_is_bare_concat (fs : FS) (clock : Clock)
    (lw ow gw sw : Nat) (all : Bool) :
    ∀ (fl : List FileInfo) (out : List String),
      longLoop fs clock lw ow gw sw all fl = (out, none) →
      out = fl.flatMap (longDirLines fs clock lw ow gw sw all) := by
  intro fl
  induction fl with
  | nil =>
      intro out h
      simp only [longLoop, Prod.mk.injEq] at h
      rw [← h.1, List.flatMap_nil]
  | cons f rest ih =>
      intro out h
      simp only [longLoop] at h
      cases hch : FileInfo.get_children fs f all with
      | error e =>
          rw [hch] at h
          simp only [Prod.mk.injEq] at h
          exact absurd h.2 (by simp)
      | ok children =>
          simp only [hch] at h
          cases herr : (renderLongChildren fs clock lw ow gw sw (sortChildren children)).2 with
          | some e =>
              simp only [herr, Prod.mk.injEq] at h
              exact absurd h.2 (by simp)
          | none =>
              simp only [herr, Prod.mk.injEq] at h
              obtain ⟨hout, htail⟩ := h
              have htail2 : longLoop fs clock lw ow gw sw all rest =
                  ((longLoop fs clock lw ow gw sw all rest).1, none) := by
                rw [← htail]
              rw [List.flatMap_cons, ← hout, ih _ htail2]
              simp only [longDirLines, hch]

theorem runsBy_cons_shape (p : Char → Bool) (c : Char) (cs : List Char) :
    ∃ t rest, runsBy p (c :: cs) = (c :: t) :: rest := by
  cases h : runsBy p cs with
  | nil => exact ⟨[], [], by simp [runsBy, h]⟩
  | cons r rs =>
      cases r with
      | nil => exact ⟨[], [], by simp [runsBy, h]⟩
      | cons d run =>
          by_cases hpd : (p c == p d) = true
          · exact ⟨d :: run, rs, by simp [runsBy, h, hpd]⟩
          · exact ⟨[], (d :: run) :: rs, by simp [runsBy, h, hpd]⟩

/-- A uniform nonempty run, followed by text of the other class, splits off
as one chunk. -/
theorem runsBy_append_run (p : Char → Bool) (v : Bool) :
    ∀ (r rest : List Char), r ≠ [] → (∀ c ∈ r, p c = v) →
      (∀ c cs', rest = c :: cs' → p c ≠ v) →
      runsBy p (r ++ rest) = r :: runsBy p rest
  | [], _, hne, _, _ => absurd rfl hne
  | [x], rest, _, hall, hrest => by
      have hx : p x = v := hall x (by simp)
      cases rest with
      | nil => simp [runsBy]
      | cons c cs' =>
          obtain ⟨t, rs, hshape⟩ := runsBy_cons_shape p c cs'
          have hpc : ¬ (p x = p c) := by
            rw [hx]
            intro hcon
            exact hrest c cs' rfl hcon.symm
          rw [List.singleton_append]
          conv_lhs => rw [runsBy]
          rw [hshape]
          simp [hpc]
  | x :: y :: r', rest, _, hall, hrest => by
      have ih := runsBy_append_run p v (y :: r') rest (by simp)
        (fun c hc => hall c (List.mem_cons_of_mem x hc)) hrest
      have hxy : p x = p y := by
        rw [hall x (by simp), hall y (by simp)]
      have ih2 : runsBy p (y :: (r' ++ rest)) = (y :: r') :: runsBy p rest := by
        rw [← List.cons_append]
        exact ih
      show runsBy p (x :: (y :: (r' ++ rest))) = (x :: y :: r') :: runsBy p rest
      conv_lhs => rw [runsBy]
      rw [ih2]
      simp [hxy]

/-- A uniform nonempty list is one run. -/
theorem runsBy_uniform (p : Char → Bool) (v : Bool) (r : List Char)
    (hne : r ≠ []) (hall : ∀ c ∈ r, p c = v) :
    runsBy p r = [r] := by
  have h2 := runsBy_append_run p v r [] hne hall (fun c cs' h => absurd h (by simp))
  rw [List.append_nil] at h2
  exact h2

/-- Prepending a word (with a blank or nothing after it) contributes one
word. -/
theorem wordsOf_word_append (w rest : List Char) (hne : w ≠ [])
    (hw : ∀ c ∈ w, isBlank c = false)
    (hrest : ∀ c cs', rest = c :: cs' → isBlank c = true) :
    wordsOf (w ++ rest) = w :: wordsOf rest := by
  unfold wordsOf
  rw [runsBy_append_run isBlank false w rest hne hw
    (fun c cs' h => by rw [hrest c cs' h]; simp)]
  rw [List.filter_cons]
  cases w with
  | nil => exact absurd rfl hne
  | cons x w' =>
      rw [if_pos (by simp [headBlank, hw x (by simp)])]

/-- Prepending blanks (with a word or nothing after them) contributes no
word. -/
theorem wordsOf_blank_append (s rest : List Char) (hne : s ≠ [])
    (hs : ∀ c ∈ s, isBlank c = true)
    (hrest : ∀ c cs', rest = c :: cs' → isBlank c = false) :
    wordsOf (s ++ rest) = wordsOf rest := by
  unfold wordsOf
  rw [runsBy_append_run isBlank true s rest hne hs
    (fun c cs' h => by rw [hrest c cs' h]; simp)]
  rw [List.filter_cons]
  cases s with
  | nil => exact absurd rfl hne
  | cons x s' =>
      rw [if_neg (by simp [headBlank, hs x (by simp)])]

theorem chunksAltB_append_left : ∀ (l1 l2 : List (List Char)) (b : Bool),
    chunksAltB b (l1 ++ l2) = true → chunksAltB b l1 = true
  | [], _, b, _ => by cases b <;> rfl
  | c :: cs, l2, b, h => by
      cases b with
      | true =>
          simp only [List.cons_append, chunksAltB, Bool.and_eq_true] at h ⊢
          exact ⟨h.1, chunksAltB_append_left cs l2 false h.2⟩
      | false =>
          simp only [List.cons_append, chunksAltB, Bool.and_eq_true] at h ⊢
          exact ⟨h.1, chunksAltB_append_left cs l2 true h.2⟩

theorem chunksAltB_append_right : ∀ (l1 l2 : List (List Char)) (b : Bool),
    chunksAltB b (l1 ++ l2) = true →
    chunksAltB true l2 = true ∨ chunksAltB false l2 = true
  | [], _, b, h => by
      cases b
      · exact .inr h
      · exact .inl h
  | c :: cs, l2, b, h => by
      cases b with
      | true =>
          simp only [List.cons_append, chunksAltB, Bool.and_eq_true] at h
          exact chunksAltB_append_right cs l2 false h.2
      | false =>
          simp only [List.cons_append, chunksAltB, Bool.and_eq_true] at h
          exact chunksAltB_append_right cs l2 true h.2

/-- The head character of the flattened chunks has the blankness dictated by
the alternation flag. -/
theorem flatten_head_blank : ∀ (cs : List (List Char)) (b : Bool),
    chunksAltB b cs = true →
    ∀ x xs', cs.flatten = x :: xs' → isBlank x = !b := by
  intro cs
  induction cs with
  | nil => intro b _ x xs' h; simp at h
  | cons c cs' ih =>
      intro b hb x xs' h
      cases b with
      | true =>
          simp only [chunksAltB, Bool.and_eq_true] at hb
          cases c with
          | nil => simp [isWordChunk] at hb
          | cons y c' =>
              simp only [List.flatten_cons, List.cons_append, List.cons.injEq] at h
              rw [← h.1]
              simp only [isWordChunk, Bool.and_eq_true, List.all_eq_true] at hb
              have hy := hb.1.2 y (by simp)
              simp only [Bool.not_eq_true'] at hy
              simp [hy]
      | false =>
          simp only [chunksAltB, Bool.and_eq_true] at hb
          cases c with
          | nil => simp [isSpChunk] at hb
          | cons y c' =>
              simp only [List.flatten_cons, List.cons_append, List.cons.injEq] at h
              rw [← h.1]
              simp only [isSpChunk, Bool.and_eq_true, List.all_eq_true] at hb
              have hy := hb.1.2 y (by simp)
              rw [show y = ' ' from by simpa using hy]
              simp [isBlank]

/-- Joining an alternating chunk list and re-splitting into words recovers
exactly its word chunks. -/
theorem wordsOf_flatten : ∀ (L : List (List Char)) (b : Bool),
    chunksAltB b L = true →
    wordsOf L.flatten = L.filter isWordChunk := by
  intro L
  induction L with
  | nil => intro b _; rfl
  | cons c cs ih =>
      intro b hb
      cases b with
      | true =>
          simp only [chunksAltB, Bool.and_eq_true] at hb
          obtain ⟨hc, hcs⟩ := hb
          have hcne : c ≠ [] := by
            intro hc0; rw [hc0] at hc; simp [isWordChunk] at hc
          have hcall : ∀ x ∈ c, isBlank x = false := by
            intro x hx
            simp only [isWordChunk, Bool.and_eq_true, List.all_eq_true] at hc
            have := hc.2 x hx
            simpa using this
          rw [List.flatten_cons,
            wordsOf_word_append c cs.flatten hcne hcall
              (fun x xs' h => by
                have := flatten_head_blank cs false hcs x xs' h
                simpa using this),
            ih false hcs, List.filter_cons, if_pos (by simpa using hc)]
      | false =>
          simp only [chunksAltB, Bool.and_eq_true] at hb
          obtain ⟨hc, hcs⟩ := hb
          have hcne : c ≠ [] := by
            intro hc0; rw [hc0] at hc; simp [isSpChunk] at hc
          have hcall : ∀ x ∈ c, isBlank x = true := by
            intro x hx
            simp only [isSpChunk, Bool.and_eq_true, List.all_eq_true] at hc
            have := hc.2 x hx
            rw [show x = ' ' from by simpa using this]
            simp [isBlank]
          have hcword : isWordChunk c = false := by
            cases c with
            | nil => exact absurd rfl hcne
            | cons y c' =>
                have hy := hcall y (by simp)
                simp only [isWordChunk, List.all_eq_true]
                simp [hy]
          rw [List.flatten_cons,
            wordsOf_blank_append c cs.flatten hcne hcall
              (fun x xs' h => by
                have := flatten_head_blank cs true hcs x xs' h
                simpa using this),
            ih true hcs, List.filter_cons, if_neg (by simp [hcword])]

/-! ## Claim C7: one `_wrap_chunks` iteration -/

theorem isWordChunk_isWsChunk_false (c : List Char) (h : isWordChunk c = true) :
    isWsChunk c = false := by
  cases c with
  | nil => simp [isWordChunk] at h
  | cons y c' =>
      simp only [isWordChunk, Bool.and_eq_true, List.all_eq_true] at h
      have hy := h.2 y (by simp)
      simp only [isBlank, Bool.not_eq_true', Bool.or_eq_false_iff] at hy
      simp [isWsChunk, hy.1]

theorem isSpChunk_isWsChunk (c : List Char) (h : isSpChunk c = true) :
    isWsChunk c = true := by
  simp only [isSpChunk, Bool.and_eq_true] at h
  simpa [isWsChunk] using h.2

theorem isWsChunk_isWordChunk_false (c : List Char) (h : isWsChunk c = true) :
    isWordChunk c = false := by
  cases c with
  | nil => rfl
  | cons y c' =>
      simp only [isWsChunk, List.all_eq_true] at h
      have hy := h y (by simp)
      have hy2 : isBlank y = true := by
        rw [show y = ' ' from by simpa using hy]
        rfl
      simp [isWordChunk, hy2]

theorem filter_dropTrailWs (t : List (List Char)) :
    (dropTrailWs t).filter isWordChunk = t.filter isWordChunk := by
  induction t using List.reverseRecOn with
  | nil => rfl
  | append_singleton ts a _ =>
      cases hws : isWsChunk a with
      | true =>
          simp only [dropTrailWs, List.getLast?_concat, hws, if_true,
            List.dropLast_concat, List.filter_append, List.filter_cons,
            isWsChunk_isWordChunk_false a hws, Bool.false_eq_true, if_false,
            List.filter_nil, List.append_nil]
      | false =>
          simp only [dropTrailWs, List.getLast?_concat, hws, Bool.false_eq_true,
            if_false]

theorem chunksLen_dropTrailWs_le (t : List (List Char)) :
    chunksLen (dropTrailWs t) ≤ chunksLen t := by
  induction t using List.reverseRecOn with
  | nil => exact le_refl _
  | append_singleton ts a _ =>
      cases hws : isWsChunk a with
      | true =>
          simp only [dropTrailWs, List.getLast?_concat, hws, if_true,
            List.dropLast_concat, chunksLen_append]
          omega
      | false =>
          simp only [dropTrailWs, List.getLast?_concat, hws, Bool.false_eq_true,
            if_false]
          exact le_refl _

theorem chunksAltB_dropTrailWs (t : List (List Char)) (h : chunksAltB true t = true) :
    chunksAltB true (dropTrailWs t) = true := by
  induction t using List.reverseRecOn with
  | nil => rfl
  | append_singleton ts a _ =>
      cases hws : isWsChunk a with
      | true =>
          simp only [dropTrailWs, List.getLast?_concat, hws, if_true,
            List.dropLast_concat]
          exact chunksAltB_append_left ts [a] true h
      | false =>
          simp only [dropTrailWs, List.getLast?_concat, hws, Bool.false_eq_true,
            if_false]
          exact h

theorem dropTrailWs_cons_word_ne_nil (wc : List Char) (t' : List (List Char))
    (hword : isWordChunk wc = true) :
    dropTrailWs (wc :: t') ≠ [] := by
  cases t' with
  | nil =>
      simp only [dropTrailWs, List.getLast?_singleton,
        isWordChunk_isWsChunk_false wc hword, Bool.false_eq_true, if_false]
      simp
  | cons b t'' =>
      cases hl : (wc :: b :: t'').getLast? with
      | none => simp at hl
      | some last =>
          cases hws : isWsChunk last with
          | true =>
              simp only [dropTrailWs, hl, hws, if_true]
              simp [List.dropLast_cons₂]
          | false =>
              simp only [dropTrailWs, hl, hws, Bool.false_eq_true, if_false]
              simp

theorem greedyTake_cons_of_fit (w n : Nat) (c : List Char) (cs : List (List Char))
    (h : n + c.length ≤ w) :
    greedyTake w n (c :: cs) =
      (c :: (greedyTake w (n + c.length) cs).1, (greedyTake w (n + c.length) cs).2) := by
  simp [greedyTake, h]

/-- When every chunk fits in the width, `_handle_long_word` never fires. -/
theorem lineSplit_no_long (w : Nat) (chunks1 : List (List Char))
    (hlen : ∀ ch ∈ chunks1, ch.length ≤ w) :
    lineSplit w chunks1 = greedyTake w 0 chunks1 := by
  cases hr : (greedyTake w 0 chunks1).2 with
  | nil =>
      simp only [lineSplit, hr]
      exact congrArg (Prod.mk _) hr.symm
  | cons c' cs' =>
      have hmem : c' ∈ chunks1 := by
        have happ := greedyTake_append w 0 chunks1
        rw [hr] at happ
        rw [← happ]
        simp
      have hnl : ¬ (w < c'.length) := by
        have := hlen c' hmem
        omega
      simp only [lineSplit, hr, hnl, if_false]
      exact congrArg (Prod.mk _) hr.symm

/-- What one loop iteration does to an alternating chunk list whose chunks
all fit: the produced line keeps its word chunks (in order, with the word
chunks of the remainder following), stays within the width, is itself
word-led alternating, and the remainder is alternating with in-range
chunks; when no line has been emitted yet, the line is nonempty. -/
theorem nextLine_spec (w : Nat) (c : List Char) (cs : List (List Char))
    (hasLines : Bool)
    (halt : chunksAltB true (c :: cs) = true ∨
      (hasLines = true ∧ chunksAltB false (c :: cs) = true))
    (hlen : ∀ ch ∈ c :: cs, ch.length ≤ w) :
    ((nextLine w (c :: cs) hasLines).1.filter isWordChunk) ++
        ((nextLine w (c :: cs) hasLines).2.filter isWordChunk) =
        (c :: cs).filter isWordChunk ∧
    chunksLen (nextLine w (c :: cs) hasLines).1 ≤ w ∧
    chunksAltB true (nextLine w (c :: cs) hasLines).1 = true ∧
    (chunksAltB true (nextLine w (c :: cs) hasLines).2 = true ∨
      chunksAltB false (nextLine w (c :: cs) hasLines).2 = true) ∧
    (∀ ch ∈ (nextLine w (c :: cs) hasLines).2, ch.length ≤ w) ∧
    (hasLines = false → (nextLine w (c :: cs) hasLines).1 ≠ []) := by
  -- the post-drop chunk list is word-led alternating and filter-equal
  have hcore : ∀ (chunks1 : List (List Char)),
      chunksAltB true chunks1 = true →
      (∀ ch ∈ chunks1, ch.length ≤ w) →
      ((dropTrailWs (lineSplit w chunks1).1).filter isWordChunk) ++
          ((lineSplit w chunks1).2.filter isWordChunk) =
          chunks1.filter isWordChunk ∧
      chunksLen (dropTrailWs (lineSplit w chunks1).1) ≤ w ∧
      chunksAltB true (dropTrailWs (lineSplit w chunks1).1) = true ∧
      (chunksAltB true (lineSplit w chunks1).2 = true ∨
        chunksAltB false (lineSplit w chunks1).2 = true) ∧
      (∀ ch ∈ (lineSplit w chunks1).2, ch.length ≤ w) := by
    intro chunks1 halt1 hlen1
    rw [lineSplit_no_long w chunks1 hlen1]
    have happ := greedyTake_append w 0 chunks1
    constructor
    · rw [filter_dropTrailWs, ← List.filter_append, happ]
    constructor
    · calc chunksLen (dropTrailWs (greedyTake w 0 chunks1).1) ≤
            chunksLen (greedyTake w 0 chunks1).1 := chunksLen_dropTrailWs_le _
        _ ≤ w := by have := greedyTake_len_le w 0 chunks1 (Nat.zero_le w); omega
    constructor
    · exact chunksAltB_dropTrailWs _ (chunksAltB_append_left _ _ true (happ ▸ halt1))
    constructor
    · exact chunksAltB_append_right _ _ true (happ ▸ halt1)
    · intro ch hch
      exact hlen1 ch (by rw [← happ]; exact List.mem_append_right _ hch)
  cases hdrop : (hasLines && isWsChunk c) with
  | true =>
      -- the leading chunk is whitespace and is dropped
      have hnl : nextLine w (c :: cs) hasLines =
          (dropTrailWs (lineSplit w cs).1, (lineSplit w cs).2) := by
        simp only [nextLine, hdrop, if_true]
      have hcsp : isSpChunk c = true ∧ chunksAltB true cs = true := by
        rcases halt with halt | ⟨-, halt⟩
        · simp only [chunksAltB, Bool.and_eq_true] at halt
          have h2 := isWordChunk_isWsChunk_false c halt.1
          simp only [Bool.and_eq_true] at hdrop
          rw [hdrop.2] at h2
          exact absurd h2 (by simp)
        · simp only [chunksAltB, Bool.and_eq_true] at halt
          exact halt
      have hfil : (c :: cs).filter isWordChunk = cs.filter isWordChunk := by
        rw [List.filter_cons,
          if_neg (by simp [isWsChunk_isWordChunk_false c (isSpChunk_isWsChunk c hcsp.1)])]
      obtain ⟨h1, h2, h3, h4, h5⟩ :=
        hcore cs hcsp.2 (fun ch hch => hlen ch (List.mem_cons_of_mem c hch))
      refine ⟨?_, ?_, ?_, ?_, ?_, ?_⟩
      · rw [hnl, hfil]; exact h1
      · rw [hnl]; exact h2
      · rw [hnl]; exact h3
      · rw [hnl]; exact h4
      · rw [hnl]; exact h5
      · intro hfalse
        rw [hfalse] at hdrop
        simp at hdrop
  | false =>
      -- no drop: the chunk list must be word-led
      have hnl : nextLine w (c :: cs) hasLines =
          (dropTrailWs (lineSplit w (c :: cs)).1, (lineSplit w (c :: cs)).2) := by
        simp only [nextLine, hdrop, Bool.false_eq_true, if_false]
      have halt1 : chunksAltB true (c :: cs) = true := by
        rcases halt with halt | ⟨hl, halt⟩
        · exact halt
        · simp only [chunksAltB, Bool.and_eq_true] at halt
          have h2 := isSpChunk_isWsChunk c halt.1
          rw [hl, h2] at hdrop
          simp at hdrop
      obtain ⟨h1, h2, h3, h4, h5⟩ := hcore (c :: cs) halt1 hlen
      refine ⟨?_, ?_, ?_, ?_, ?_, ?_⟩
      · rw [hnl]; exact h1
      · rw [hnl]; exact h2
      · rw [hnl]; exact h3
      · rw [hnl]; exact h4
      · rw [hnl]; exact h5
      · intro _
        rw [hnl]
        have hcword : isWordChunk c = true := by
          simp only [chunksAltB, Bool.and_eq_true] at halt1
          exact halt1.1
        have hcfit : 0 + c.length ≤ w := by
          have := hlen c (by simp)
          omega
        rw [lineSplit_no_long w (c :: cs) hlen, greedyTake_cons_of_fit w 0 c cs hcfit]
        exact dropTrailWs_cons_word_ne_nil c _ hcword

/-- The wrap loop preserves the words, in order, and emits no line wider
than the width — whenever the chunks alternate and each fits the width. -/
theorem wrapLinesGo_spec (w : Nat) (hw : 1 ≤ w) :
    ∀ (fuel : Nat) (chunks : List (List Char)) (hasLines : Bool),
      wrapMeasure chunks < fuel →
      (chunksAltB true chunks = true ∨
        (hasLines = true ∧ chunksAltB false chunks = true)) →
      (∀ ch ∈ chunks, ch.length ≤ w) →
      (wrapLinesGo fuel w chunks hasLines).flatMap wordsOf =
          chunks.filter isWordChunk ∧
      (∀ line ∈ wrapLinesGo fuel w chunks hasLines, line.length ≤ w) := by
  intro fuel
  induction fuel with
  | zero =>
      intro chunks hasLines hf
      exact absurd hf (by omega)
  | succ fuel ih =>
      intro chunks hasLines hf halt hlen
      match chunks with
      | [] => simp [wrapLinesGo]
      | c :: cs =>
          have hmax : max 1 w = w := Nat.max_eq_right hw
          obtain ⟨hA, hB, hC, hD, hE, hF⟩ := nextLine_spec w c cs hasLines halt hlen
          have hdec := nextLine_measure w hw c cs hasLines
          simp only [wrapLinesGo, hmax]
          cases hempty : (nextLine w (c :: cs) hasLines).1.isEmpty with
          | true =>
              simp only [if_true]
              have hs1 : (nextLine w (c :: cs) hasLines).1 = [] :=
                List.isEmpty_iff.mp hempty
              have hhl : hasLines = true := by
                cases hhl2 : hasLines
                · exact absurd hs1 (hF hhl2)
                · rfl
              have halt2 : chunksAltB true (nextLine w (c :: cs) hasLines).2 = true ∨
                  (hasLines = true ∧
                    chunksAltB false (nextLine w (c :: cs) hasLines).2 = true) := by
                rcases hD with h | h
                · exact .inl h
                · exact .inr ⟨hhl, h⟩
              have hrec := ih (nextLine w (c :: cs) hasLines).2 hasLines (by omega) halt2 hE
              constructor
              · rw [hrec.1, ← hA, hs1]
                simp
              · exact hrec.2
          | false =>
              simp only [Bool.false_eq_true, if_false]
              have halt2 : chunksAltB true (nextLine w (c :: cs) hasLines).2 = true ∨
                  ((true : Bool) = true ∧
                    chunksAltB false (nextLine w (c :: cs) hasLines).2 = true) := by
                rcases hD with h | h
                · exact .inl h
                · exact .inr ⟨rfl, h⟩
              have hrec := ih (nextLine w (c :: cs) hasLines).2 true (by omega) halt2 hE
              constructor
              · rw [List.flatMap_cons, hrec.1,
                  wordsOf_flatten (nextLine w (c :: cs) hasLines).1 true hC, hA]
              · intro line hline
                rcases List.mem_cons.mp hline with h | h
                · rw [h, List.length_flatten]
                  exact hB
                · exact hrec.2 line h

/-! ## Claim C7: the chunk structure of the padded, joined names -/

theorem strMkData (s : String) : String.mk s.data = s := by
  cases s
  rfl

theorem isPyWs_not_space (c : Char) (h : isPyWs c = false) : (c == ' ') = false := by
  cases hc : c == ' '
  · rfl
  · rw [show c = ' ' from by simpa using hc] at h
    simp [isPyWs] at h

theorem isPyWs_not_blank (c : Char) (h : isPyWs c = false) : isBlank c = false := by
  simp only [isPyWs, Bool.or_eq_false_iff] at h
  simp only [isBlank, Bool.or_eq_false_iff]
  exact ⟨h.1.1.1.1.1, h.1.1.1.2⟩

theorem pyLjust_data (n : String) (k : Nat) :
    (pyLjust n k).data = n.data ++ List.replicate (k - n.length) ' ' := by
  unfold pyLjust
  by_cases h : k ≤ n.length
  · rw [if_pos h, show k - n.length = 0 from by omega]
    simp
  · rw [if_neg h, String.data_append]

theorem munge_name (l : List Char) (h : ∀ c ∈ l, isPyWs c = false) : munge l = l := by
  induction l with
  | nil => rfl
  | cons c cs ih =>
      show (if isPyWs c = true then ' ' else c) :: munge cs = c :: cs
      rw [h c (by simp), ih (fun x hx => h x (List.mem_cons_of_mem c hx))]
      simp

theorem munge_replicate_space (k : Nat) :
    munge (List.replicate k ' ') = List.replicate k ' ' := by
  unfold munge
  rw [List.map_replicate, ite_self]

theorem munge_newline_cons (l : List Char) : munge ('\n' :: l) = ' ' :: munge l := rfl

theorem munge_pyLjust_data (n : String) (k : Nat)
    (h : ∀ c ∈ n.data, isPyWs c = false) :
    munge (pyLjust n k).data = n.data ++ List.replicate (k - n.length) ' ' := by
  rw [pyLjust_data, munge, List.map_append, ← munge, ← munge, munge_name n.data h,
    munge_replicate_space]

/-- The munged join of the padded names starts with the first name's
characters. -/
theorem munge_pyJoin_starts (maxLen : Nat) (m : String) (rest : List String)
    (hmw : ∀ c ∈ m.data, isPyWs c = false) :
    ∃ t, munge (pyJoin "\n" ((m :: rest).map (fun n => pyLjust n maxLen))).data =
      m.data ++ t := by
  cases rest with
  | nil =>
      refine ⟨List.replicate (maxLen - m.length) ' ', ?_⟩
      simp only [List.map_cons, List.map_nil, pyJoin]
      exact munge_pyLjust_data m maxLen hmw
  | cons m2 rest2 =>
      refine ⟨List.replicate (maxLen - m.length) ' ' ++ ' ' ::
        munge (pyJoin "\n" ((m2 :: rest2).map (fun n => pyLjust n maxLen))).data, ?_⟩
      simp only [List.map_cons, pyJoin]
      rw [String.data_append, String.data_append,
        show ("\n" : String).data = ['\n'] from rfl, List.append_assoc,
        List.singleton_append, munge, List.map_append, ← munge, ← munge,
        munge_newline_cons, munge_pyLjust_data m maxLen hmw, List.append_assoc]

/-- Splitting the munged, newline-joined, padded names yields exactly
`nameChunks`. -/
theorem splitRuns_padded (maxLen : Nat) :
    ∀ names : List String,
      (∀ n ∈ names, n.data ≠ [] ∧ n.length ≤ maxLen ∧
        ∀ c ∈ n.data, isPyWs c = false) →
      splitRuns (munge (pyJoin "\n" (names.map (fun n => pyLjust n maxLen))).data) =
        nameChunks maxLen names
  | [], _ => rfl
  | [n], h => by
      obtain ⟨hne, hlen, hws⟩ := h n (by simp)
      simp only [List.map_cons, List.map_nil, pyJoin, nameChunks]
      rw [munge_pyLjust_data n maxLen hws]
      have hnosp : ∀ c ∈ n.data, spaceP c = false :=
        fun c hc => isPyWs_not_space c (hws c hc)
      by_cases hlt : n.length < maxLen
      · rw [if_pos hlt]
        unfold splitRuns
        rw [runsBy_append_run spaceP false n.data _ hne hnosp
          (fun c cs' hcc => by
            have hk : maxLen - n.length = Nat.succ (maxLen - n.length - 1) := by omega
            rw [hk, List.replicate_succ] at hcc
            injection hcc with h1 h2
            rw [← h1]
            simp [spaceP]),
          runsBy_uniform spaceP true _ (by
            intro hnil
            have hlen2 := congrArg List.length hnil
            rw [List.length_replicate] at hlen2
            simp at hlen2
            omega) (fun c hc => by
            rw [List.eq_of_mem_replicate hc]
            rfl)]
      · rw [if_neg hlt, show maxLen - n.length = 0 from by omega]
        simp only [List.replicate_zero, List.append_nil]
        exact runsBy_uniform spaceP false n.data hne hnosp
  | n :: m :: rest, h => by
      obtain ⟨hne, hlen, hws⟩ := h n (by simp)
      have htail : ∀ x ∈ m :: rest, x.data ≠ [] ∧ x.length ≤ maxLen ∧
          ∀ c ∈ x.data, isPyWs c = false :=
        fun x hx => h x (List.mem_cons_of_mem n hx)
      obtain ⟨hm, -, hmw⟩ := htail m (by simp)
      simp only [List.map_cons, pyJoin, nameChunks]
      rw [String.data_append, String.data_append,
        show ("\n" : String).data = ['\n'] from rfl, List.append_assoc,
        List.singleton_append, munge, List.map_append, ← munge, ← munge,
        munge_newline_cons, munge_pyLjust_data n maxLen hws]
      obtain ⟨t, ht⟩ := munge_pyJoin_starts maxLen m rest hmw
      simp only [List.map_cons] at ht
      have hspacer : ∀ T : List Char,
          List.replicate (maxLen - n.length) ' ' ++ ' ' :: T =
            List.replicate (maxLen - n.length + 1) ' ' ++ T := by
        intro T
        rw [List.replicate_succ']
        simp
      rw [List.append_assoc, hspacer]
      have hnosp : ∀ c ∈ n.data, spaceP c = false :=
        fun c hc => isPyWs_not_space c (hws c hc)
      unfold splitRuns
      rw [runsBy_append_run spaceP false n.data _ hne hnosp
        (fun c cs' hcc => by
          rw [List.replicate_succ, List.cons_append] at hcc
          injection hcc with h1 h2
          rw [← h1]
          simp [spaceP]),
        runsBy_append_run spaceP true _ _ (by simp)
          (fun c hc => by rw [List.eq_of_mem_replicate hc]; rfl)
          (fun c cs' hcc => by
            rw [ht] at hcc
            cases hmd : m.data with
            | nil => exact absurd hmd hm
            | cons y ys =>
                rw [hmd, List.cons_append] at hcc
                injection hcc with h1 h2
                rw [← h1]
                have hy := isPyWs_not_space y (hmw y (by rw [hmd]; simp))
                simp [spaceP, hy])]
      have hih := splitRuns_padded maxLen (m :: rest) htail
      unfold splitRuns at hih
      simp only [List.map_cons] at hih
      rw [hih]

/-! ## Claim C7: putting the pieces together -/

theorem isWordChunk_of_name (l : List Char) (hne : l ≠ [])
    (h : ∀ c ∈ l, isPyWs c = false) : isWordChunk l = true := by
  simp only [isWordChunk, Bool.and_eq_true, List.all_eq_true]
  constructor
  · simpa using hne
  · intro x hx
    simp [isPyWs_not_blank x (h x hx)]

theorem isSpChunk_replicate (k : Nat) (hk : k ≠ 0) :
    isSpChunk (List.replicate k ' ') = true := by
  simp only [isSpChunk, Bool.and_eq_true, List.all_eq_true]
  constructor
  · cases k with
    | zero => exact absurd rfl hk
    | succ j => simp [List.replicate_succ]
  · intro x hx
    rw [List.eq_of_mem_replicate hx]
    rfl

theorem nameChunks_alt (maxLen : Nat) :
    ∀ names : List String,
      (∀ n ∈ names, n.data ≠ [] ∧ ∀ c ∈ n.data, isPyWs c = false) →
      chunksAltB true (nameChunks maxLen names) = true
  | [], _ => rfl
  | [n], h => by
      obtain ⟨hne, hws⟩ := h n (by simp)
      simp only [nameChunks]
      by_cases hlt : n.length < maxLen
      · rw [if_pos hlt]
        simp only [chunksAltB, Bool.and_eq_true]
        exact ⟨isWordChunk_of_name n.data hne hws,
          isSpChunk_replicate (maxLen - n.length) (by omega), trivial⟩
      · rw [if_neg hlt]
        simp only [chunksAltB, Bool.and_eq_true]
        exact ⟨isWordChunk_of_name n.data hne hws, trivial⟩
  | n :: m :: rest, h => by
      obtain ⟨hne, hws⟩ := h n (by simp)
      have hih := nameChunks_alt maxLen (m :: rest)
        (fun x hx => h x (List.mem_cons_of_mem n hx))
      simp only [nameChunks, chunksAltB, Bool.and_eq_true]
      exact ⟨isWordChunk_of_name n.data hne hws,
        isSpChunk_replicate (maxLen - n.length + 1) (by omega), hih⟩

theorem nameChunks_filter (maxLen : Nat) :
    ∀ names : List String,
      (∀ n ∈ names, n.data ≠ [] ∧ ∀ c ∈ n.data, isPyWs c = false) →
      (nameChunks maxLen names).filter isWordChunk = names.map String.data
  | [], _ => rfl
  | [n], h => by
      obtain ⟨hne, hws⟩ := h n (by simp)
      simp only [nameChunks]
      by_cases hlt : n.length < maxLen
      · rw [if_pos hlt, List.filter_cons,
          if_pos (by simp [isWordChunk_of_name n.data hne hws]), List.filter_cons,
          if_neg (by simp [isWsChunk_isWordChunk_false _
            (isSpChunk_isWsChunk _ (isSpChunk_replicate (maxLen - n.length) (by omega)))])]
        rfl
      · rw [if_neg hlt, List.filter_cons,
          if_pos (by simp [isWordChunk_of_name n.data hne hws])]
        rfl
  | n :: m :: rest, h => by
      obtain ⟨hne, hws⟩ := h n (by simp)
      have hih := nameChunks_filter maxLen (m :: rest)
        (fun x hx => h x (List.mem_cons_of_mem n hx))
      simp only [nameChunks]
      rw [List.filter_cons, if_pos (by simp [isWordChunk_of_name n.data hne hws]),
        List.filter_cons,
        if_neg (by simp [isWsChunk_isWordChunk_false _
          (isSpChunk_isWsChunk _ (isSpChunk_replicate (maxLen - n.length + 1) (by omega)))]),
        hih]
      rfl

theorem nameChunks_len (w maxLen : Nat) (hml : maxLen ≤ w) :
    ∀ names : List String,
      (∀ n ∈ names, n.data ≠ [] ∧ n.length ≤ maxLen) →
      ∀ ch ∈ nameChunks maxLen names, ch.length ≤ w
  | [], _, ch, hch => by simp [nameChunks] at hch
  | [n], h, ch, hch => by
      obtain ⟨hne, hlen⟩ := h n (by simp)
      have hdl : n.data.length ≤ maxLen := hlen
      simp only [nameChunks] at hch
      by_cases hlt : n.length < maxLen
      · rw [if_pos hlt] at hch
        rcases List.mem_cons.mp hch with h2 | h2
        · rw [h2]; omega
        · rcases List.mem_cons.mp h2 with h3 | h3
          · rw [h3, List.length_replicate]; omega
          · cases h3
      · rw [if_neg hlt] at hch
        rcases List.mem_cons.mp hch with h2 | h2
        · rw [h2]; omega
        · cases h2
  | n :: m :: rest, h, ch, hch => by
      obtain ⟨hne, hlen⟩ := h n (by simp)
      have hdl : n.data.length ≤ maxLen := hlen
      have hpos : n.data.length ≠ 0 := by
        intro h0
        exact hne (List.eq_nil_of_length_eq_zero h0)
      simp only [nameChunks] at hch
      rcases List.mem_cons.mp hch with h2 | h2
      · rw [h2]; omega
      · rcases List.mem_cons.mp h2 with h3 | h3
        · rw [h3, List.length_replicate]
          have : n.length = n.data.length := rfl
          omega
        · exact nameChunks_len w maxLen hml (m :: rest)
            (fun x hx => h x (List.mem_cons_of_mem n hx)) ch h3

theorem foldl_pick_seed_le : ∀ (l : List String) (s : String),
    s.length ≤ (l.foldl (fun acc t => if acc.length < t.length then t else acc) s).length
  | [], _ => le_refl _
  | t :: ts, s => by
      simp only [List.foldl_cons]
      by_cases h : s.length < t.length
      · rw [if_pos h]
        have := foldl_pick_seed_le ts t
        omega
      · rw [if_neg h]
        exact foldl_pick_seed_le ts s

theorem foldl_pick_mem : ∀ (l : List String) (s : String),
    (l.foldl (fun acc t => if acc.length < t.length then t else acc) s) ∈ s :: l
  | [], s => by simp
  | t :: ts, s => by
      simp only [List.foldl_cons]
      by_cases h : s.length < t.length
      · rw [if_pos h]
        rcases List.mem_cons.mp (foldl_pick_mem ts t) with h2 | h2
        · rw [h2]; simp
        · exact List.mem_cons_of_mem s (List.mem_cons_of_mem t h2)
      · rw [if_neg h]
        rcases List.mem_cons.mp (foldl_pick_mem ts s) with h2 | h2
        · rw [h2]; simp
        · exact List.mem_cons_of_mem s (List.mem_cons_of_mem t h2)

theorem foldl_pick_ge : ∀ (l : List String) (s x : String), x ∈ s :: l →
    x.length ≤ (l.foldl (fun acc t => if acc.length < t.length then t else acc) s).length
  | [], s, x, hx => by
      rcases List.mem_cons.mp hx with h | h
      · rw [h]
        exact le_refl _
      · cases h
  | t :: ts, s, x, hx => by
      simp only [List.foldl_cons]
      by_cases h : s.length < t.length
      · rw [if_pos h]
        rcases List.mem_cons.mp hx with h2 | h2
        · rw [h2]
          have := foldl_pick_seed_le ts t
          omega
        · exact foldl_pick_ge ts t x h2
      · rw [if_neg h]
        rcases List.mem_cons.mp hx with h2 | h2
        · rw [h2]
          exact foldl_pick_seed_le ts s
        · rcases List.mem_cons.mp h2 with h3 | h3
          · rw [h3]
            have := foldl_pick_seed_le ts s
            omega
          · exact foldl_pick_ge ts s x (List.mem_cons_of_mem s h3)

theorem flatMap_map_mk (lines : List (List Char)) :
    (lines.map String.mk).flatMap strWords = (lines.flatMap wordsOf).map String.mk := by
  induction lines with
  | nil => rfl
  | cons l ls ih =>
      simp only [List.map_cons, List.flatMap_cons, List.map_append, ← ih]
      rfl

/-! ## Claim C7 -/

/-- C7 amended: for a nonempty batch of entries whose names are nonempty,
free of (ASCII) whitespace and hyphens, and each no longer than the terminal
width, the short-form output consists of lines no wider than the terminal
width whose whitespace-separated words are EXACTLY the sorted entry names,
each appearing once, in order — names at most as wide as the terminal are
never split, and lines break only between names.  (Padding between names is
preserved inside a line but dropped at line ends, and the last name of a
line is fitted without its padding; a name wider than the terminal would be
split, see the counterexample.) -/
theorem c7_short_render_amended (w : Nat) (children : List FileInfo)
    (hw : 1 ≤ w) (hne : children ≠ [])
    (hnames : ∀ f ∈ children, f.name.data ≠ [] ∧ f.name.length ≤ w ∧
      ∀ c ∈ f.name.data, isPyWs c = false ∧ c ≠ '-') :
    ∃ lines : List String,
      renderShortDir w children = .ok (pyJoin "\n" lines) ∧
      lines.flatMap strWords = (sortChildren children).map (fun f => f.name) ∧
      ∀ line ∈ lines, line.length ≤ w := by
  have hperm := List.perm_insertionSort childLE children
  have hmem : ∀ f ∈ sortChildren children, f ∈ children :=
    fun f hf => hperm.mem_iff.mp hf
  cases hnl : (sortChildren children).map (fun f => f.name) with
  | nil =>
      exfalso
      apply hne
      have hlen0 := congrArg List.length hnl
      rw [List.length_map] at hlen0
      unfold sortChildren at hlen0
      rw [hperm.length_eq] at hlen0
      exact List.eq_nil_of_length_eq_zero hlen0
  | cons n0 ns =>
      have hgood : ∀ n ∈ n0 :: ns, n.data ≠ [] ∧ n.length ≤ w ∧
          ∀ c ∈ n.data, isPyWs c = false := by
        intro n hn
        rw [← hnl] at hn
        obtain ⟨f, hf, hfn⟩ := List.mem_map.mp hn
        obtain ⟨h1, h2, h3⟩ := hnames f (hmem f hf)
        rw [← hfn]
        exact ⟨h1, h2, fun c hc => (h3 c hc).1⟩
      set longest := ns.foldl (fun acc t => if acc.length < t.length then t else acc) n0
        with hlongest
      have hmaxmem : longest ∈ n0 :: ns := foldl_pick_mem ns n0
      have hmax_w : longest.length ≤ w := (hgood longest hmaxmem).2.1
      have hmax_ge : ∀ n ∈ n0 :: ns, n.length ≤ longest.length :=
        fun n hn => foldl_pick_ge ns n0 n hn
      have hgood2 : ∀ n ∈ n0 :: ns, n.data ≠ [] ∧ n.length ≤ longest.length ∧
          ∀ c ∈ n.data, isPyWs c = false :=
        fun n hn => ⟨(hgood n hn).1, hmax_ge n hn, (hgood n hn).2.2⟩
      -- the chunk list fed to the wrapper
      have hchunks : splitRuns (munge (pyJoin "\n"
          ((n0 :: ns).map (fun n => pyLjust n longest.length))).data) =
          nameChunks longest.length (n0 :: ns) :=
        splitRuns_padded longest.length (n0 :: ns) hgood2
      have halt := nameChunks_alt longest.length (n0 :: ns)
        (fun n hn => ⟨(hgood n hn).1, (hgood n hn).2.2⟩)
      have hlen := nameChunks_len w longest.length hmax_w (n0 :: ns)
        (fun n hn => ⟨(hgood n hn).1, hmax_ge n hn⟩)
      have hspec := wrapLinesGo_spec w hw
        (wrapMeasure (nameChunks longest.length (n0 :: ns)) + 1)
        (nameChunks longest.length (n0 :: ns)) false
        (by omega) (.inl halt) hlen
      refine ⟨(wrapLinesGo (wrapMeasure (nameChunks longest.length (n0 :: ns)) + 1) w
        (nameChunks longest.length (n0 :: ns)) false).map String.mk, ?_, ?_, ?_⟩
      · -- the renderer equation
        have hpad : (sortChildren children).map (fun c => pyLjust c.name longest.length) =
            (n0 :: ns).map (fun n => pyLjust n longest.length) := by
          rw [← hnl, List.map_map]
          rfl
        simp only [renderShortDir]
        rw [hnl, show pyMaxByLen (n0 :: ns) = Except.ok longest from rfl]
        simp only [bind, Except.bind]
        rw [hpad]
        simp only [pyFill]
        rw [if_neg (by omega)]
        unfold wrapLines
        rw [hchunks]
      · rw [flatMap_map_mk]
        rw [hspec.1, nameChunks_filter longest.length (n0 :: ns)
          (fun n hn => ⟨(hgood n hn).1, (hgood n hn).2.2⟩)]
        rw [List.map_map, show String.mk ∘ String.data = id from funext strMkData,
          List.map_id]
      · intro line hline
        obtain ⟨l, hl, hlmk⟩ := List.mem_map.mp hline
        rw [← hlmk]
        exact hspec.2 l hl

/-- Witness for the amended C7: two names, width 5. -/
theorem c7_short_render_amended_witness :
    ∃ lines : List String,
      renderShortDir 5 [fiReg "aa", fiReg "b"] = .ok (pyJoin "\n" lines) ∧
      lines.flatMap strWords =
        (sortChildren [fiReg "aa", fiReg "b"]).map (fun f => f.name) ∧
      ∀ line ∈ lines, line.length ≤ 5 :=
  c7_short_render_amended 5 [fiReg "aa", fiReg "b"] (by decide) (by decide) (by decide)

/-- C7: FALSE as stated, twice over.  (1) A name longer than the terminal
width IS split across lines (`break_long_words`): `abcdef` at width 3
renders as `abc` / `def`, and the name appears on no line, whereas the
claim's renderer keeps it whole on an over-wide line.  (2) Line breaking
does not operate on the padded names: for names `aaa`, `b` at width 5 the
code emits the single line `aaa b` (the last name's padding is not counted
when fitting, and trailing padding is dropped), whereas wrapping the padded
names greedily as the claim describes gives two lines `aaa` / `b  `. -/
theorem c7_short_render_counterexample :
    (renderShortDir 3 [fiReg "abcdef"] = .ok "abc\ndef" ∧
      pyJoin "\n" (specShortLines 3 ["abcdef"]) = "abcdef" ∧
      ("abc\ndef" : String) ≠ "abcdef") ∧
    (renderShortDir 5 [fiReg "aaa", fiReg "b"] = .ok "aaa b" ∧
      pyJoin "\n" (specShortLines 5 ["aaa", "b"]) = "aaa\nb  " ∧
      ("aaa b" : String) ≠ "aaa\nb  ") := by
  decide

/-- Witness for the amended C9: the two-target run of the demo filesystem,
whose output is the bare concatenation of the `d` and `e` listings. -/
theorem c9_long_output_is_bare_concat_witness :
    ["-rw-r--r-- 1 u g   10 Jan 05  2019 x",
     "-rw-r--r-- 12 u g 1000 Jan 05  2019 y",
     "-rw-r--r-- 1 u g    7 Jan 05  2019 z"] =
      ([{ path := "d", name := "d", file_type := .DIR,
           filemode_str := some "drwxr-xr-x", num_links := some 2, size := some 4096,
           mtime := some 100, uid := some 0, gid := some 0,
           owner := some "u", group := some "g" },
         { path := "e", name := "e", file_type := .DIR,
           filemode_str := some "drwxr-xr-x", num_links := some 2, size := some 4096,
           mtime := some 100, uid := some 0, gid := some 0,
           owner := some "u", group := some "g" }] : List FileInfo).flatMap
        (longDirLines fsDemo clock2019 1 1 1 4 false) :=
  c9_long_output_is_bare_concat fsDemo clock2019 1 1 1 4 false _ _ (by decide)

end Pyls
